import Mathlib

/-!
Verification development for the bvp-tools repository (Rust sources under
`bvp-converters/src`).  The repository converts raw volumetric data to the
Block Volume Package (BVP) format and back.  This file gives a shallow
embedding of the data model (3-vectors, formats, blocks, placements), the
block copy engine (`get_data_in_range` / `set_data_in_range`), the LZ4S
compression codec, the SAF archive codec, the manifest-JSON block parser and
the stage-2 worker of the parallel raw-to-BVP pipeline, and proves or refutes
the frozen specification claims about them.

Machine integers are modelled as `Nat` with explicit `% 2^32` where the Rust
code performs wrapping `u32` arithmetic (release-mode semantics; debug builds
would panic on overflow — noted where it matters).  Fallible operations
return `Except`/`Option`; `Option.none` models a Rust panic.  The Rust code
routes `u32` vector division through `f32` (`impl Div for Vector3<u32>`
divides as `f32` and the caller truncates with `to_u32()` or rounds up with
`ceil()`), so a faithful model of binary32 rounding on the normal range is
included.
-/

namespace Bvp

/-- Modulus of wrapping `u32` machine arithmetic. -/
def M32 : ℕ := 4294967296

/-- Bound under which every natural number is exactly representable in
binary32 (2 to the 24th). -/
def M24 : ℕ := 16777216

/-! ### A model of binary32 (f32) rounding on the normal range

The Rust sources convert `u32` values to `f32`, divide, and convert back
(`impl Div for Vector3<u32>` divides componentwise as `f32`, and the caller
truncates with `to_u32()` or rounds up with `ceil()`; used by
`Format::count_space`, `Block::get_data_in_range`, `Block::set_data_in_range`
and stage 1 of the parallel pipeline).  The composites
`(a as f32 / b as f32) as u32` and `(a as f32 / b as f32).ceil() as u32` are
modelled exactly, in pure natural-number arithmetic: a `u32` converts to
`f32` by rounding to a 24-bit significand (nearest, ties to even); IEEE
division returns the correctly rounded exact quotient; `as u32` truncates
toward zero and saturates (Rust float-to-int cast semantics).  All values
reached from `u32` inputs lie in the binary32 normal range, which is what
this model covers. -/

/-- Number of binary digits of `n` (0 for 0), computed with structural fuel
so that the kernel can evaluate it. -/
def bitLenAux : ℕ → ℕ → ℕ
  | 0, _ => 0
  | fuel+1, n => if n = 0 then 0 else bitLenAux fuel (n / 2) + 1

/-- Bit length of a natural number below `2^64`. -/
def bitLen (n : ℕ) : ℕ := bitLenAux 64 n

theorem bitLenAux_spec (fuel : ℕ) :
    ∀ n : ℕ, n < 2 ^ fuel →
      (n = 0 → bitLenAux fuel n = 0) ∧
      (1 ≤ n → 2 ^ (bitLenAux fuel n - 1) ≤ n ∧ n < 2 ^ bitLenAux fuel n ∧
        1 ≤ bitLenAux fuel n) := by
  induction fuel with
  | zero =>
    intro n hn
    constructor
    · intro h0
      rfl
    · intro h1
      omega
  | succ fuel ih =>
    intro n hn
    constructor
    · intro h0
      simp [bitLenAux, h0]
    · intro h1
      have hne : n ≠ 0 := by omega
      rw [bitLenAux, if_neg hne]
      rcases Nat.lt_or_ge n 2 with h2 | h2
      · have hn1 : n = 1 := by omega
        subst hn1
        have hz : bitLenAux fuel 0 = 0 := (ih 0 (Nat.pos_pow_of_pos fuel (by omega))).1 rfl
        norm_num [hz]
      · have hhalf : n / 2 < 2 ^ fuel := by
          have hpow : 2 ^ (fuel + 1) = 2 ^ fuel * 2 := by ring
          omega
        have hpos : 1 ≤ n / 2 := by omega
        obtain ⟨hlo, hhi, hone⟩ := (ih (n / 2) hhalf).2 hpos
        refine ⟨?_, ?_, by omega⟩
        · have : 2 ^ (bitLenAux fuel (n / 2) - 1) * 2 ≤ (n / 2) * 2 := by omega
          have h2n : (n / 2) * 2 ≤ n := by omega
          calc 2 ^ (bitLenAux fuel (n / 2) + 1 - 1) = 2 ^ (bitLenAux fuel (n / 2) - 1) * 2 := by
                rw [← pow_succ]
                congr 1
                omega
          _ ≤ (n / 2) * 2 := this
          _ ≤ n := h2n
        · have : n / 2 + 1 ≤ 2 ^ bitLenAux fuel (n / 2) := hhi
          have hup : n < (n / 2) * 2 + 2 := by omega
          calc n < (n / 2) * 2 + 2 := hup
          _ = (n / 2 + 1) * 2 := by ring
          _ ≤ 2 ^ bitLenAux fuel (n / 2) * 2 := by omega
          _ = 2 ^ (bitLenAux fuel (n / 2) + 1) := (pow_succ 2 _).symm

theorem bitLen_spec (n : ℕ) (hn : n < 2 ^ 64) (h1 : 1 ≤ n) :
    2 ^ (bitLen n - 1) ≤ n ∧ n < 2 ^ bitLen n ∧ 1 ≤ bitLen n :=
  (bitLenAux_spec 64 n hn).2 h1

/-- `bitLen` is at most `k` whenever `n < 2^k` (for `k ≤ 64`). -/
theorem bitLen_le (n k : ℕ) (hn : n < 2 ^ k) (hk : k ≤ 64) : bitLen n ≤ k := by
  rcases Nat.eq_zero_or_pos n with h0 | h1
  · subst h0
    have : bitLen 0 = 0 := (bitLenAux_spec 64 0 (Nat.pos_pow_of_pos 64 (by omega))).1 rfl
    omega
  have hn64 : n < 2 ^ 64 := lt_of_lt_of_le hn (Nat.pow_le_pow_right (by omega) hk)
  obtain ⟨hlo, _hhi, hone⟩ := bitLen_spec n hn64 h1
  by_contra hgt
  push_neg at hgt
  have : 2 ^ k ≤ 2 ^ (bitLen n - 1) := Nat.pow_le_pow_right (by omega) (by omega)
  omega

/-- Round a natural number to a 24-bit significand, nearest, ties to even:
the value of `n as f32` for `n : u32` (always an integer, since `u32` values
are below `2^32 ≤ 2^(24+eₘₐₓ)`). -/
def rnd24 (n : ℕ) : ℕ :=
  let L := bitLen n
  if L ≤ 24 then n
  else
    let s := L - 24
    let q := n / 2 ^ s
    let r := n % 2 ^ s
    let h := 2 ^ (s - 1)
    let q2 := if r < h then q else if h < r then q + 1
              else (if q % 2 = 0 then q else q + 1)
    q2 * 2 ^ s

/-- Naturals below `2^24` are exact binary32 values. -/
theorem rnd24_small (n : ℕ) (hn : n < M24) : rnd24 n = n := by
  have hL : bitLen n ≤ 24 := bitLen_le n 24 (by simpa [M24] using hn) (by omega)
  simp [rnd24, hL]

/-- Greatest `e` in `[top - fuel, top]` with `2^e ≤ A / B` (as exact
rationals, expressed by cross-multiplication), or the bottom of the range. -/
def qExpAux (A B : ℕ) : ℕ → ℤ → ℤ
  | 0, e => e
  | n+1, e =>
    if (if 0 ≤ e then B * 2 ^ e.toNat ≤ A else B ≤ A * 2 ^ (-e).toNat)
    then e else qExpAux A B n (e - 1)

/-- Binary exponent of the exact quotient `A / B` of two positive naturals
below `2^33`: the unique `e` with `2^e ≤ A/B < 2^(e+1)`. -/
def qExp (A B : ℕ) : ℤ := qExpAux A B 67 33

/-- Round the exact fraction `N / D` to the nearest integer, ties to even. -/
def roundHalfEven (N D : ℕ) : ℕ :=
  if 2 * (N % D) < D then N / D
  else if D < 2 * (N % D) then N / D + 1
  else (if (N / D) % 2 = 0 then N / D else N / D + 1)

/-- Numerator of the quotient `A / B` scaled into `[2^23, 2^24)`. -/
def scaledN (A B : ℕ) : ℕ :=
  if qExp A B ≤ 23 then A * 2 ^ (23 - qExp A B).toNat else A

/-- Denominator of the quotient `A / B` scaled into `[2^23, 2^24)`. -/
def scaledD (A B : ℕ) : ℕ :=
  if qExp A B ≤ 23 then B else B * 2 ^ (qExp A B - 23).toNat

/-- The 24-bit significand of the correctly rounded binary32 quotient of the
exact values `A / B` (both positive integers, as every `u32`-derived `f32`
value is). -/
def rndQ (A B : ℕ) : ℕ := roundHalfEven (scaledN A B) (scaledD A B)

/-- The correctly rounded (nearest, ties to even) binary32 quotient of the
exact values `A / B`, truncated toward zero (for `.to_u32()`). -/
def f32DivFloor (A B : ℕ) : ℕ :=
  if 23 ≤ qExp A B
  then rndQ A B * 2 ^ (qExp A B - 23).toNat
  else rndQ A B / 2 ^ (23 - qExp A B).toNat

/-- Same quotient, rounded up instead of truncated (for `.ceil() as u32`). -/
def f32DivCeil (A B : ℕ) : ℕ :=
  if 23 ≤ qExp A B
  then rndQ A B * 2 ^ (qExp A B - 23).toNat
  else (rndQ A B + 2 ^ (23 - qExp A B).toNat - 1) / 2 ^ (23 - qExp A B).toNat

/-- `(a as f32 / b as f32) as u32`, the composite the Rust code computes via
`impl Div for Vector3<u32>` followed by `to_u32()`.  Division by zero yields
f32 infinity (for `a > 0`), which the saturating cast sends to `u32::MAX`;
`0.0 / 0.0` is NaN, which casts to `0`; `0.0 / b` is `0.0`. -/
def divToU32 (a b : ℕ) : ℕ :=
  if b = 0 then (if a = 0 then 0 else M32 - 1)
  else if a = 0 then 0
  else min (f32DivFloor (rnd24 a) (rnd24 b)) (M32 - 1)

/-- `(a as f32 / b as f32).ceil() as u32`, the composite computed by
`Vector3::div` followed by `Vector3::<f32>::ceil` (stage 1 of the parallel
pipeline). -/
def ceilDivToU32 (a b : ℕ) : ℕ :=
  if b = 0 then (if a = 0 then 0 else M32 - 1)
  else if a = 0 then 0
  else min (f32DivCeil (rnd24 a) (rnd24 b)) (M32 - 1)

theorem qExpAux_eq (A B : ℕ) (e' : ℤ)
    (h1 : if 0 ≤ e' then B * 2 ^ e'.toNat ≤ A else B ≤ A * 2 ^ (-e').toNat)
    (h2 : ¬ (if 0 ≤ e' + 1 then B * 2 ^ (e' + 1).toNat ≤ A
             else B ≤ A * 2 ^ (-(e' + 1)).toNat))
    (_hB : 0 < B) (_hA : 0 < A) :
    ∀ (n : ℕ) (e : ℤ), e' ≤ e → e ≤ e' + n → qExpAux A B n e = e' := by
  have key : ∀ f : ℤ, e' + 1 ≤ f →
      ¬ (if 0 ≤ f then B * 2 ^ f.toNat ≤ A else B ≤ A * 2 ^ (-f).toNat) := by
    intro f hf
    -- monotonicity: the predicate `2^f ≤ A/B` is antitone in `f`,
    -- expressed via cross-multiplication
    intro hcontra
    apply h2
    by_cases hp : 0 ≤ e' + 1
    · rw [if_pos hp]
      have hpf : 0 ≤ f := le_trans hp hf
      rw [if_pos hpf] at hcontra
      have hmono : (2:ℕ) ^ (e' + 1).toNat ≤ 2 ^ f.toNat :=
        Nat.pow_le_pow_right (by omega) (by omega)
      calc B * 2 ^ (e' + 1).toNat ≤ B * 2 ^ f.toNat := Nat.mul_le_mul_left B hmono
      _ ≤ A := hcontra
    · rw [if_neg hp]
      by_cases hpf : 0 ≤ f
      · rw [if_pos hpf] at hcontra
        have h1le : 1 ≤ 2 ^ f.toNat := Nat.one_le_two_pow
        have hBA : B ≤ A := by
          calc B ≤ B * 2 ^ f.toNat := Nat.le_mul_of_pos_right B (by omega)
          _ ≤ A := hcontra
        calc B ≤ A := hBA
        _ ≤ A * 2 ^ (-(e' + 1)).toNat := Nat.le_mul_of_pos_right A (by positivity)
      · rw [if_neg hpf] at hcontra
        have hmono : (2:ℕ) ^ (-f).toNat ≤ 2 ^ (-(e' + 1)).toNat :=
          Nat.pow_le_pow_right (by omega) (by omega)
        calc B ≤ A * 2 ^ (-f).toNat := hcontra
        _ ≤ A * 2 ^ (-(e' + 1)).toNat := Nat.mul_le_mul_left A hmono
  intro n
  induction n with
  | zero =>
    intro e hle hub
    have : e = e' := by omega
    simp [qExpAux, this]
  | succ n ih =>
    intro e hle hub
    rw [qExpAux]
    rcases eq_or_lt_of_le hle with heq | hlt
    · subst heq
      rw [if_pos h1]
    · rw [if_neg (key e (by omega))]
      exact ih (e - 1) (by omega) (by omega)

/-- In the exact-division case `A = B * k`, the quotient exponent is the
bit-length exponent of `k`. -/
theorem qExp_exact (B k : ℕ) (hB : 0 < B) (hk : 0 < k) (hBk : B * k < 2 ^ 33) :
    qExp (B * k) B = (bitLen k - 1 : ℤ) := by
  have hk33 : k < 2 ^ 33 := by
    have : k ≤ B * k := Nat.le_mul_of_pos_left k hB
    omega
  have hk64 : k < 2 ^ 64 := by
    have : (2:ℕ) ^ 33 ≤ 2 ^ 64 := Nat.pow_le_pow_right (by omega) (by omega)
    omega
  obtain ⟨hlo, hhi, hone⟩ := bitLen_spec k hk64 hk
  set L := bitLen k with hLdef
  have hL33 : L ≤ 33 := bitLen_le k 33 hk33 (by omega)
  have he' : ((L:ℤ) - 1).toNat = L - 1 := by omega
  have hpos : (0:ℤ) ≤ (L:ℤ) - 1 := by omega
  apply qExpAux_eq
  · rw [if_pos hpos, he']
    calc B * 2 ^ (L - 1) ≤ B * k := Nat.mul_le_mul_left B hlo
    _ = B * k := rfl
  · have hp1 : (0:ℤ) ≤ (L:ℤ) - 1 + 1 := by omega
    rw [if_pos hp1]
    have : ((L:ℤ) - 1 + 1).toNat = L := by omega
    rw [this]
    push_neg
    exact (mul_lt_mul_left hB).mpr hhi
  · exact hB
  · positivity
  · omega
  · omega

/-- Exact division through `f32` (floor direction): when `b` divides `a` and
`a < 2^24`, the `u32 → f32 → divide → u32` path computes exact natural
division. -/
theorem divToU32_exact (a b : ℕ) (hb : 0 < b) (hdvd : b ∣ a) (ha : a < M24) :
    divToU32 a b = a / b := by
  have hbne : b ≠ 0 := by omega
  rw [divToU32, if_neg hbne]
  rcases Nat.eq_zero_or_pos a with ha0 | ha1
  · simp [ha0]
  rw [if_neg (by omega)]
  obtain ⟨k, hk⟩ := hdvd
  have hble : b ≤ a := Nat.le_of_dvd ha1 ⟨k, hk⟩
  have hk1 : 1 ≤ k := by
    rcases Nat.eq_zero_or_pos k with h0 | h1
    · rw [h0, Nat.mul_zero] at hk
      omega
    · exact h1
  have hka : k ≤ a := by
    calc k ≤ b * k := Nat.le_mul_of_pos_left k hb
    _ = a := hk.symm
  have hdiveq : a / b = k := by
    rw [hk]
    exact Nat.mul_div_cancel_left k hb
  rw [rnd24_small a ha, rnd24_small b (by omega), hdiveq, hk]
  have hbk33 : b * k < 2 ^ 33 := by
    have : M24 < 2 ^ 33 := by norm_num [M24]
    omega
  have hqe : qExp (b * k) b = (bitLen k - 1 : ℤ) := qExp_exact b k hb (by omega) hbk33
  have hk64 : k < 2 ^ 64 := by
    have : M24 < 2 ^ 64 := by norm_num [M24]
    omega
  obtain ⟨hlo, hhi, hone⟩ := bitLen_spec k hk64 hk1
  set L := bitLen k with hLdef
  have hL24 : L ≤ 24 := bitLen_le k 24 (by simpa [M24] using lt_of_le_of_lt hka ha) (by omega)
  have hle23 : qExp (b * k) b ≤ 23 := by rw [hqe]; omega
  have htn : ((23:ℤ) - qExp (b * k) b).toNat = 24 - L := by rw [hqe]; omega
  have hsN : scaledN (b * k) b = k * 2 ^ (24 - L) * b := by
    rw [scaledN, if_pos hle23, htn]
    ring
  have hsD : scaledD (b * k) b = b := by
    rw [scaledD, if_pos hle23]
  have hrq : rndQ (b * k) b = k * 2 ^ (24 - L) := by
    rw [rndQ, hsN, hsD, roundHalfEven, Nat.mul_mod_left, Nat.mul_div_cancel _ hb]
    rw [if_pos (by omega : 2 * 0 < b)]
  by_cases h23 : (23:ℤ) ≤ qExp (b * k) b
  · -- then L = 24 and the scale factor is 2^0 = 1
    have hL24e : L = 24 := by rw [hqe] at h23; omega
    rw [f32DivFloor, if_pos h23, hrq, hL24e]
    have h0 : (qExp (b * k) b - 23).toNat = 0 := by rw [hqe, hL24e]; omega
    rw [h0]
    have hkM : k ≤ M32 - 1 := by
      have hM : M24 ≤ M32 - 1 := by norm_num [M24, M32]
      omega
    simp
    omega
  · rw [f32DivFloor, if_neg h23, hrq, htn]
    rw [Nat.mul_div_cancel k (by positivity)]
    have hkM : k ≤ M32 - 1 := by
      have hM : M24 ≤ M32 - 1 := by norm_num [M24, M32]
      omega
    omega

/-- Exact division through `f32` (ceiling direction). -/
theorem ceilDivToU32_exact (a b : ℕ) (hb : 0 < b) (hdvd : b ∣ a) (ha : a < M24) :
    ceilDivToU32 a b = a / b := by
  have hbne : b ≠ 0 := by omega
  rw [ceilDivToU32, if_neg hbne]
  rcases Nat.eq_zero_or_pos a with ha0 | ha1
  · simp [ha0]
  rw [if_neg (by omega)]
  obtain ⟨k, hk⟩ := hdvd
  have hble : b ≤ a := Nat.le_of_dvd ha1 ⟨k, hk⟩
  have hk1 : 1 ≤ k := by
    rcases Nat.eq_zero_or_pos k with h0 | h1
    · rw [h0, Nat.mul_zero] at hk
      omega
    · exact h1
  have hka : k ≤ a := by
    calc k ≤ b * k := Nat.le_mul_of_pos_left k hb
    _ = a := hk.symm
  have hdiveq : a / b = k := by
    rw [hk]
    exact Nat.mul_div_cancel_left k hb
  rw [rnd24_small a ha, rnd24_small b (by omega), hdiveq, hk]
  have hbk33 : b * k < 2 ^ 33 := by
    have : M24 < 2 ^ 33 := by norm_num [M24]
    omega
  have hqe : qExp (b * k) b = (bitLen k - 1 : ℤ) := qExp_exact b k hb (by omega) hbk33
  have hk64 : k < 2 ^ 64 := by
    have : M24 < 2 ^ 64 := by norm_num [M24]
    omega
  obtain ⟨hlo, hhi, hone⟩ := bitLen_spec k hk64 hk1
  set L := bitLen k with hLdef
  have hL24 : L ≤ 24 := bitLen_le k 24 (by simpa [M24] using lt_of_le_of_lt hka ha) (by omega)
  have hle23 : qExp (b * k) b ≤ 23 := by rw [hqe]; omega
  have htn : ((23:ℤ) - qExp (b * k) b).toNat = 24 - L := by rw [hqe]; omega
  have hsN : scaledN (b * k) b = k * 2 ^ (24 - L) * b := by
    rw [scaledN, if_pos hle23, htn]
    ring
  have hsD : scaledD (b * k) b = b := by
    rw [scaledD, if_pos hle23]
  have hrq : rndQ (b * k) b = k * 2 ^ (24 - L) := by
    rw [rndQ, hsN, hsD, roundHalfEven, Nat.mul_mod_left, Nat.mul_div_cancel _ hb]
    rw [if_pos (by omega : 2 * 0 < b)]
  by_cases h23 : (23:ℤ) ≤ qExp (b * k) b
  · have hL24e : L = 24 := by rw [hqe] at h23; omega
    rw [f32DivCeil, if_pos h23, hrq, hL24e]
    have h0 : (qExp (b * k) b - 23).toNat = 0 := by rw [hqe, hL24e]; omega
    rw [h0]
    have hkM : k ≤ M32 - 1 := by
      have hM : M24 ≤ M32 - 1 := by norm_num [M24, M32]
      omega
    simp
    omega
  · rw [f32DivCeil, if_neg h23, hrq, htn]
    have hpow1 : 1 ≤ 2 ^ (24 - L) := Nat.one_le_two_pow
    have hceil : (k * 2 ^ (24 - L) + 2 ^ (24 - L) - 1) / 2 ^ (24 - L) = k := by
      have hP : 0 < 2 ^ (24 - L) := by positivity
      have hc : k * 2 ^ (24 - L) = 2 ^ (24 - L) * k := Nat.mul_comm _ _
      have h2 : k * 2 ^ (24 - L) + 2 ^ (24 - L) - 1
          = (2 ^ (24 - L) - 1) + 2 ^ (24 - L) * k := by omega
      rw [h2, Nat.add_mul_div_left _ _ hP, Nat.div_eq_of_lt (by omega)]
      omega
    rw [hceil]
    have hkM : k ≤ M32 - 1 := by
      have hM : M24 ≤ M32 - 1 := by norm_num [M24, M32]
      omega
    omega


/-! ### 3-vectors (`src/lib/vector3.rs`)

`Vector3<u32>` is modelled with `Nat` components (always `< 2^32` in
practice).  `+`, `-`, `*` on `u32` wrap in release builds (debug builds
panic on overflow/underflow); the wrapping semantics is modelled explicitly.
`/` is the `f32` division described above. -/

structure Vector3 where
  x : ℕ
  y : ℕ
  z : ℕ
deriving DecidableEq, Repr

namespace Vector3

/-- `Vector3::from_xyz`. -/
def fromXyz (x y z : ℕ) : Vector3 := ⟨x, y, z⟩

/-- `Vector3::is_any_lt`: some component of `v` is smaller than the
corresponding component of `w`. -/
def isAnyLt (v w : Vector3) : Bool :=
  v.x < w.x || v.y < w.y || v.z < w.z

/-- `Vector3::is_any_gt`. -/
def isAnyGt (v w : Vector3) : Bool :=
  decide (v.x > w.x) || decide (v.y > w.y) || decide (v.z > w.z)

/-- `Vector3::is_any_div`: some component of `v` is not divisible by the
corresponding component of `w`.  (Rust `%` panics when a component of `w` is
zero; valid formats have all microblock components ≥ 1, and Lean's `x % 0 = x`
is never reached under the hypotheses used below.) -/
def isAnyDiv (v w : Vector3) : Bool :=
  v.x % w.x ≠ 0 || v.y % w.y ≠ 0 || v.z % w.z ≠ 0

/-- `Vector3::min` (componentwise minimum). -/
def minv (v w : Vector3) : Vector3 :=
  ⟨min v.x w.x, min v.y w.y, min v.z w.z⟩

/-- `impl Add for Vector3<u32>` (wrapping in release builds). -/
def addW (v w : Vector3) : Vector3 :=
  ⟨(v.x + w.x) % M32, (v.y + w.y) % M32, (v.z + w.z) % M32⟩

/-- `impl Sub for Vector3<u32>` (wrapping in release builds; debug builds
panic on underflow).  Components are assumed `< 2^32`. -/
def subW (v w : Vector3) : Vector3 :=
  ⟨(v.x + M32 - w.x % M32) % M32, (v.y + M32 - w.y % M32) % M32,
   (v.z + M32 - w.z % M32) % M32⟩

/-- `impl Mul for Vector3<u32>` (wrapping in release builds). -/
def mulW (v w : Vector3) : Vector3 :=
  ⟨v.x * w.x % M32, v.y * w.y % M32, v.z * w.z % M32⟩

/-- `impl Div for Vector3<u32>` (componentwise `f32` division) composed with
`Vector3::<f32>::to_u32` (componentwise truncating cast), the only way the
sources consume a vector quotient besides `ceil`. -/
def divToU32v (v w : Vector3) : Vector3 :=
  ⟨divToU32 v.x w.x, divToU32 v.y w.y, divToU32 v.z w.z⟩

/-- `impl Div for Vector3<u32>` composed with `Vector3::<f32>::ceil`. -/
def ceilDiv (v w : Vector3) : Vector3 :=
  ⟨ceilDivToU32 v.x w.x, ceilDivToU32 v.y w.y, ceilDivToU32 v.z w.z⟩

/-- `Vector3::linear_index`: `i.x + i.y*dim.x + i.z*dim.x*dim.y`, computed in
wrapping `u32` arithmetic and then cast to `usize`. -/
def linearIndex (i dim : Vector3) : ℕ :=
  ((i.x + i.y * dim.x % M32) % M32 + i.z * dim.x % M32 * dim.y % M32) % M32

/-- `Vector3::multiply_elements`: `x*y*z` in wrapping `u32` arithmetic. -/
def multiplyElements (v : Vector3) : ℕ :=
  v.x * v.y % M32 * v.z % M32

/-- Componentwise `≤` (not a source operation; used to state claims). -/
def le3 (v w : Vector3) : Prop := v.x ≤ w.x ∧ v.y ≤ w.y ∧ v.z ≤ w.z

/-- Componentwise divisibility (used to state claims). -/
def dvd3 (v w : Vector3) : Prop := v.x ∣ w.x ∧ v.y ∣ w.y ∧ v.z ∣ w.z

/-- All components below `2^24` (the f32-exact range). -/
def small24 (v : Vector3) : Prop := v.x < M24 ∧ v.y < M24 ∧ v.z < M24

/-- All components ≥ 1. -/
def pos3 (v : Vector3) : Prop := 0 < v.x ∧ 0 < v.y ∧ 0 < v.z

instance instDecLe3 (v w : Vector3) : Decidable (le3 v w) := by
  unfold le3
  infer_instance

instance instDecDvd3 (v w : Vector3) : Decidable (dvd3 v w) := by
  unfold dvd3
  infer_instance

instance instDecSmall24 (v : Vector3) : Decidable (small24 v) := by
  unfold small24
  infer_instance

instance instDecPos3 (v : Vector3) : Decidable (pos3 v) := by
  unfold pos3
  infer_instance

end Vector3

/-! ### Formats (`src/lib/formats.rs`) -/

inductive PrimitiveType where
  | int
  | uint
  | float
deriving DecidableEq, Repr

inductive FormatFamily where
  | mono (count : ℕ) (tp : PrimitiveType) (size : ℕ)
deriving DecidableEq, Repr

inductive Extension where
  | extFormatMono
deriving DecidableEq, Repr

structure Format where
  microblockDimensions : Vector3
  microblockSize : ℕ
  family : FormatFamily
  extension : Option Extension
deriving DecidableEq, Repr

namespace Format

/-- `Format::count_microblocks`: `microblock_size * microblock_amount` in
wrapping `u32` arithmetic. -/
def countMicroblocks (f : Format) (microblockAmount : ℕ) : ℕ :=
  f.microblockSize * microblockAmount % M32

/-- `Format::count_space`: byte size of a block of the given dimensions. -/
def countSpace (f : Format) (dimensions : Vector3) : ℕ :=
  f.countMicroblocks ((dimensions.divToU32v f.microblockDimensions).multiplyElements)

end Format

/-- The `mono { count: 1, type: u, size: 1 }` format (microblock 1×1×1 of
1 byte), as built by `MonoFormat::from_hashmap`. -/
def monoU8 : Format :=
  { microblockDimensions := ⟨1, 1, 1⟩
    microblockSize := 1
    family := .mono 1 .uint 1
    extension := none }

/-! ### Compression type and the LZ4S codec
(`src/compression.rs`; `src/lib/compressions/mod.rs`) -/

inductive CompressionType where
  | none
  | lz4s
deriving DecidableEq, Repr

/-- `read_u32`: little-endian `u32` from four bytes
(`b1<<0 | b2<<8 | b3<<16 | b4<<24`; for byte values < 256 the bitwise-or of
the disjoint shifted bytes equals their sum, which is how it is written
here).  Out-of-range reads panic in Rust; every call site is guarded, so the
`getD` default is never read. -/
def readU32 (src : List ℕ) (i : ℕ) : ℕ :=
  src.getD i 0 + src.getD (i+1) 0 * 256 + src.getD (i+2) 0 * 65536 +
    src.getD (i+3) 0 * 16777216

/-- `hash_u32`: Bob-Jenkins-style integer mixing on `Wrapping<u32>` (shifts
operate on the 32-bit value; every add and left shift wraps). -/
def hashU32 (x : ℕ) : ℕ :=
  let a := ((x % M32 + 0x7ed55d16) % M32 + x % M32 * 4096 % M32) % M32
  let b := (a ^^^ 0xc761c23c) ^^^ a / 524288
  let c := ((b + 0x165667b1) % M32 + b * 32 % M32) % M32
  let d := ((c + 0xd3a2646c) % M32) ^^^ (c * 512 % M32)
  let e := ((d + 0xfd7046c5) % M32 + d * 8 % M32) % M32
  (e ^^^ 0xb55a4f09) ^^^ e / 65536

/-- Run-length extension bytes emitted for an overflow count `n`
(`lit - 15` or `mlen - 15`): `0xFF` repeated while the remainder is ≥ 255,
then one final byte < 255. -/
def extBytes (n : ℕ) : List ℕ := List.replicate (n / 255) 255 ++ [n % 255]

/-- The greedy match extension of `compress_lz4s`: the length of the common
run of `src` at `si` and `mi`, bounded by `src.len() - si` (the loop
condition `src_index < src.len()`), passed as structural fuel. -/
def commonLen (src : List ℕ) : ℕ → ℕ → ℕ → ℕ
  | _, _, 0 => 0
  | si, mi, fuel+1 =>
    if src.getD si 0 = src.getD mi 0 then commonLen src (si+1) (mi+1) fuel + 1
    else 0

/-- A `u32` bit pattern reinterpreted as `i32` (Rust's `as i32` on a `u32`,
and the low 32 bits of `usize as i32`). -/
def toI32 (n : ℕ) : ℤ :=
  if n % M32 < 2 ^ 31 then (n % M32 : ℤ) else (n % M32 : ℤ) - 2 ^ 32

/-- Wrapping `i32` arithmetic (release builds; debug builds panic on
overflow): wrap an integer into `[-2^31, 2^31)`. -/
def i32Wrap (z : ℤ) : ℤ := (z + 2 ^ 31) % 2 ^ 32 - 2 ^ 31

/-- The main loop of `compress_lz4s` from state (`hash_table = table`,
`src_index = si`, `literal_start = ls`), returning every byte emitted from
this state on, including the trailing-literal epilogue.  `table h` holds
`(index + 1) as u32` with `0` meaning empty, exactly as the source stores it
(the 65536-entry `Vec<u32>` is modelled as a function).  The source reads an
entry back as `hash_table[h] as i32 - 1` (wrapping in release builds),
treats a negative result as "no match", reads `read_u32(src, match_index as
usize)` -- a panic, modelled as `none`, when fewer than 4 bytes are there --
and compares `match_offset = src_index as i32 - match_index` (wrapping
`i32`) against `1 << 16`; the emitted offset bytes are the low 16 bits of
that `i32`'s two's-complement bit pattern.  `fuel` bounds the number of loop
iterations; `none` also models non-termination, which cannot happen on `u8`
inputs (each iteration advances `src_index`). -/
def compressLoop (src : List ℕ) : ℕ → (ℕ → ℕ) → ℕ → ℕ → Option (List ℕ)
  | 0, _, _, _ => Option.none
  | fuel+1, table, si, ls =>
    if si + 4 < src.length then
      let data := readU32 src si
      let h32 := hashU32 data
      let h16 := (h32 / 65536 ^^^ h32) % 65536
      let stored := table h16
      let table2 := fun h => if h = h16 then (si + 1) % M32 else table h
      let matchIndex := i32Wrap (toI32 stored - 1)
      if matchIndex < 0 then compressLoop src fuel table2 (si+1) ls
      else if src.length < matchIndex.toNat + 4 then Option.none
      else
        let mi := matchIndex.toNat
        let matchOffset := i32Wrap (toI32 si - matchIndex)
        if readU32 src mi = data ∧ matchOffset < 65536 then
          let ml := commonLen src si mi (src.length - si)
          let lc := si - ls
          let offBits := (matchOffset % 4294967296).toNat
          match compressLoop src fuel table2 (si + ml) (si + ml) with
          | Option.none => Option.none
          | some rest =>
            some ([min lc 15 * 16 + min ml 15]
              ++ (if 15 ≤ lc then extBytes (lc - 15) else [])
              ++ ((List.range lc).map fun k => src.getD (ls + k) 0)
              ++ [offBits % 256, offBits / 256 % 256]
              ++ (if 15 ≤ ml then extBytes (ml - 15) else [])
              ++ rest)
        else
          compressLoop src fuel table2 (si+1) ls
    else
      let lc := src.length - ls
      some ([min lc 15 * 16]
        ++ (if 15 ≤ lc then extBytes (lc - 15) else [])
        ++ ((List.range lc).map fun k => src.getD (ls + k) 0)
        ++ [1, 0]
        ++ (if 0 < lc then [0] else []))

/-- `compress_lz4s`.  The hash table starts all-zero; `src_index` and
`literal_start` start at 0.  The fuel `src.length + 1` suffices for every
byte input (proved with the round-trip theorem); `none` would model
non-termination. -/
def compress_lz4s (src : List ℕ) : Option (List ℕ) :=
  compressLoop src (src.length + 1) (fun _ => 0) 0 0

/-- The decoder run-length accumulation
(`count += src[i]; while src[i] == 0xff { i += 1; count += src[i] }; i += 1`):
sums a maximal run of `0xFF` bytes plus the following byte, returning the sum
and the rest; `none` models the out-of-bounds panic when the input ends
mid-run. -/
def readRun : List ℕ → Option (ℕ × List ℕ)
  | [] => Option.none
  | b :: rest =>
    if b = 255 then
      match readRun rest with
      | Option.none => Option.none
      | some (n, r) => some (255 + n, r)
    else some (b, rest)

/-- The decoder match copy: `mlen` single-byte appends reading
`dest[match_index]` onward (byte-by-byte, so overlapping matches re-read
freshly written bytes); `none` models the index panic. -/
def matchCopy : List ℕ → ℕ → ℕ → Option (List ℕ)
  | dest, _, 0 => some dest
  | dest, mi, k+1 =>
    match dest[mi]? with
    | Option.none => Option.none
    | some b => matchCopy (dest ++ [b]) (mi + 1) k

/-- The while loop of `decompress_lz4s` over the remaining input, carrying
the output built so far.  `fuel` bounds the iteration count (each iteration
consumes at least the token byte, so `src.length + 1` suffices); `none`
models a panic (out-of-bounds read, or the `dest.len() - offset` underflow).
Byte values are `u8` in the source, hence < 256; the little-endian offset
is written as a sum, which agrees with the source's bitwise-or there. -/
def decompressLoopF : ℕ → List ℕ → List ℕ → Option (List ℕ)
  | 0, _, _ => Option.none
  | _+1, dest, [] => some dest
  | fuel+1, dest, token :: rest =>
    if token = 0 then some dest
    else
      match (if token / 16 = 15 then
               match readRun rest with
               | Option.none => Option.none
               | some (n, r) => some (15 + n, r)
             else some (token / 16, rest)) with
      | Option.none => Option.none
      | some (lc, r1) =>
        if r1.length < lc then Option.none
        else
          match r1.drop lc with
          | [] => Option.none
          | [_] => Option.none
          | o0 :: o1 :: r3 =>
            let dest2 := dest ++ r1.take lc
            let off := o0 + o1 * 256
            if dest2.length < off then Option.none
            else
              match (if token % 16 = 15 then
                       match readRun r3 with
                       | Option.none => Option.none
                       | some (n, r) => some (15 + n, r)
                     else some (token % 16, r3)) with
              | Option.none => Option.none
              | some (ml, r4) =>
                match matchCopy dest2 (dest2.length - off) ml with
                | Option.none => Option.none
                | some dest3 => decompressLoopF fuel dest3 r4

/-- `decompress_lz4s`.  The `size` argument only pre-allocates capacity in
the source and does not affect the result. -/
def decompress_lz4s (src : List ℕ) (_size : ℕ) : Option (List ℕ) :=
  decompressLoopF (src.length + 1) [] src

namespace CompressionType

/-- `CompressionType::compress` (`src/lib/compressions/mod.rs`).
Modelled from the spec: `src/lib/compressions/lz4s.rs` is not present under
`src/`; spec §4.D defines the LZ4S dialect, identical to the sibling
`src/compression.rs` whose `compress_lz4s`/`decompress_lz4s` are embedded
above, so those are used here. -/
def compress : CompressionType → List ℕ → Option (List ℕ)
  | .none, source => some source
  | .lz4s, source => compress_lz4s source

/-- `CompressionType::decompress` (`src/lib/compressions/mod.rs`); see
`CompressionType.compress` for the modelling note. -/
def decompress : CompressionType → List ℕ → ℕ → Option (List ℕ)
  | .none, source, _ => some source
  | .lz4s, source, size => decompress_lz4s source size

end CompressionType

/-! ### JSON values and error taxonomy
(`tinyjson::JsonValue` is an external crate; its value tree is modelled by
`Json`.  `src/lib/errors.rs` defines the error enums; only the payload-free
structure matters here.) -/

inductive Json where
  | null
  | boolean (b : Bool)
  | num (n : ℕ)
  | str (s : String)
  | arr (elems : List Json)
  | obj (fields : List (String × Json))

/-- Association-list lookup modelling `HashMap` access.  `tinyjson` objects
are hash maps (unordered); the model keeps insertion order, which only makes
serialization deterministic and does not affect any claim.  A missing key
panics under Rust's `Index` (`o["k"]`); the model returns `Json.null`
instead, which sends every caller into its error branch — no claim below
exercises that difference. -/
def jsonLookup (fields : List (String × Json)) (key : String) : Option Json :=
  match fields with
  | [] => Option.none
  | (k, v) :: rest => if k = key then some v else jsonLookup rest key

/-- `o["key"]` (panics on a missing key in Rust; see `jsonLookup`). -/
def jsonIndex (fields : List (String × Json)) (key : String) : Json :=
  (jsonLookup fields key).getD Json.null

inductive JsonError where
  | notANumber (j : Json)
  | notAnArray (j : Json)
  | notAString (j : Json)
  | notAVector3 (j : Json)
  | notAnObject (j : Json)

inductive CompressionError where
  | unsupported (s : String)
deriving DecidableEq, Repr

inductive PlacementError where
  | invalidJson (blockIndex : ℕ) (e : JsonError)

inductive BlockError where
  | noData (i : ℕ)
  | formatMismatch (i j : ℕ)
  | startGreaterThanEnd (i : ℕ) (s e : Vector3)
  | startOutOfBounds (i : ℕ) (v : Vector3)
  | endOutOfBounds (i : ℕ) (v : Vector3)
  | blockInvalidPosition (i : ℕ) (v md : Vector3)
  | blockInvalidSize (i : ℕ) (v md : Vector3)
  | invalidCompression (i : ℕ) (e : CompressionError)
  | invalidJson (i : ℕ) (e : JsonError)
  | invalidPlacement (i : ℕ) (e : PlacementError)

/-! ### Placements and blocks (`src/lib/placement.rs`, `src/lib/block.rs`) -/

structure Placement where
  position : Vector3
  block : ℕ
deriving DecidableEq, Repr

/-- `Placement::new`. -/
def Placement.new (position : Vector3) (block : ℕ) : Placement := ⟨position, block⟩

structure Block where
  index : ℕ
  dimensions : Vector3
  placements : List Placement
  format : Option ℕ
  data : Option (List ℕ)
  dataUrl : Option String
  encoding : Option CompressionType
deriving DecidableEq, Repr

/-- `Block::new`: fresh block with empty placements, no URL, no encoding. -/
def Block.new (index : ℕ) (dimensions : Vector3) (format : Option ℕ)
    (data : Option (List ℕ)) : Block :=
  { index := index
    dimensions := dimensions
    placements := []
    format := format
    data := data
    dataUrl := Option.none
    encoding := Option.none }

/-- The `for x { for y { for z { … } } }` iteration order over a microblock
box, as a list of local microblock coordinates. -/
def tripleRange (nx ny nz : ℕ) : List Vector3 :=
  (List.range nx).flatMap fun x =>
    (List.range ny).flatMap fun y =>
      (List.range nz).map fun z => ⟨x, y, z⟩

/-- The innermost copy loop of both block-copy operations:
`dest[i + dm*ms] = src[i + sm*ms]` for `i < ms` (`usize` arithmetic).
Writes through `List.set` (out-of-bounds writes panic in Rust; under the
hypotheses used below every write is in bounds). -/
def copyMicroblock (srcBytes : List ℕ) (sm dm ms : ℕ) (dest : List ℕ) : List ℕ :=
  (List.range ms).foldl
    (fun d i => d.set (i + dm * ms) (srcBytes.getD (i + sm * ms) 0)) dest

/-- `Block::get_data_in_range` (copy-out): validity checks, then a gather of
`extent / md` microblocks from `self.data` into a fresh block.  The source
allocates the destination uninitialized (`unsafe set_len`) and the loops
overwrite all of it; the model starts from zeros. -/
def Block.getDataInRange (self : Block) (start end_ : Vector3) (format : Format) :
    Except BlockError Block :=
  let extent := end_.subW start
  match self.data with
  | Option.none => .error (.noData self.index)
  | some srcBytes =>
    if extent.isAnyLt ⟨0,0,0⟩ then .error (.startGreaterThanEnd self.index start end_)
    else if start.isAnyLt ⟨0,0,0⟩ then .error (.startOutOfBounds self.index start)
    else if end_.isAnyGt self.dimensions then .error (.endOutOfBounds self.index start)
    else if start.isAnyDiv format.microblockDimensions then
      .error (.blockInvalidPosition self.index start format.microblockDimensions)
    else if extent.isAnyDiv format.microblockDimensions then
      .error (.blockInvalidSize self.index start format.microblockDimensions)
    else
      let ms := format.microblockSize
      let mbStart := start.divToU32v format.microblockDimensions
      let air := extent.divToU32v format.microblockDimensions
      let aib := self.dimensions.divToU32v format.microblockDimensions
      let dest0 : List ℕ := List.replicate (format.countSpace extent) 0
      let destBytes := (tripleRange air.x air.y air.z).foldl
        (fun d l =>
          copyMicroblock srcBytes (Vector3.linearIndex (l.addW mbStart) aib)
            (Vector3.linearIndex l air) ms d)
        dest0
      .ok { Block.new 0 extent self.format Option.none with data := some destBytes }

/-- `Block::set_data_in_range` (copy-in): validity checks, decompression of
the source block if encoded, then a scatter into `self.data` over the
rectangle `[offset, offset + block.dimensions)`.  The outer `Option` models
panics (from `decompress_lz4s` on corrupt input); the source mutates `self`,
modelled by returning the updated block. -/
def Block.setDataInRange (self : Block) (offset : Vector3) (block : Block)
    (format : Format) : Option (Except BlockError Block) :=
  let start := offset
  let end_ := offset.addW block.dimensions
  let extent := end_.subW start
  match self.data with
  | Option.none => some (.error (.noData self.index))
  | some destOld =>
    match block.data with
    | Option.none => some (.error (.noData block.index))
    | some blockData =>
      if self.format ≠ block.format then
        some (.error (.formatMismatch self.index block.index))
      else if extent.isAnyLt ⟨0,0,0⟩ then
        some (.error (.startGreaterThanEnd self.index start end_))
      else if start.isAnyLt ⟨0,0,0⟩ then
        some (.error (.startOutOfBounds self.index start))
      else if end_.isAnyGt self.dimensions then
        some (.error (.endOutOfBounds self.index end_))
      else if start.isAnyDiv format.microblockDimensions then
        some (.error (.blockInvalidPosition self.index start format.microblockDimensions))
      else if extent.isAnyDiv format.microblockDimensions then
        some (.error (.blockInvalidSize self.index extent format.microblockDimensions))
      else
        let ms := format.microblockSize
        let mbStart := start.divToU32v format.microblockDimensions
        let air := extent.divToU32v format.microblockDimensions
        let aib := self.dimensions.divToU32v format.microblockDimensions
        match (match block.encoding with
               | Option.none => some blockData
               | some enc => enc.decompress blockData (format.countSpace block.dimensions)) with
        | Option.none => Option.none
        | some srcBytes =>
          let destBytes := (tripleRange air.x air.y air.z).foldl
            (fun d l =>
              copyMicroblock srcBytes (Vector3.linearIndex l air)
                (Vector3.linearIndex (l.addW mbStart) aib) ms d)
            destOld
          some (.ok { self with data := some destBytes })

/-- `Block::is_equal_data`: `false` without data; otherwise a length check
followed by an elementwise comparison. -/
def Block.isEqualData (self : Block) (vec : List ℕ) : Bool :=
  match self.data with
  | Option.none => false
  | some data => if data.length ≠ vec.length then false else data == vec

/-! ### Files and the SAF archive codec
(`src/lib/file.rs`, `src/lib/archives/saf.rs`)

`File.data` is `Arc<Vec<u8>>` in the source (shared immutable bytes),
modelled as the byte list itself.  The JSON text codec (`tinyjson`'s
`stringify`/`from_str`) is an external crate, declared out of scope by the
spec; `to_saf_archive` and `from_saf_archive` therefore take the codec as a
parameter, and a concrete minified-JSON codec (defined later) instantiates
it in witnesses. -/

structure File where
  name : String
  data : List ℕ
  mime : Option String
deriving DecidableEq, Repr

/-- `File::new`. -/
def File.new (name : String) (data : List ℕ) (mime : Option String) : File :=
  ⟨name, data, mime⟩

inductive SafError where
  | notValidIdentifier
  | brokenFile
  | manifestCorrupt (msg : String)
  | invalidJson (e : JsonError)

/-- The 12 SAF magic bytes. -/
def safIdentifier : List ℕ :=
  [0xab, 0x53, 0x41, 0x46, 0x20, 0x31, 0x30, 0xbb, 0x0d, 0x0a, 0x1a, 0x0a]

/-- `(n as u32).to_le_bytes()`. -/
def u32leBytes (n : ℕ) : List ℕ :=
  [n % M32 % 256, n % M32 / 256 % 256, n % M32 / 65536 % 256,
   n % M32 / 16777216 % 256]

/-- Saturating `f64`-to-`u32` cast (`*n as u32` on a `tinyjson` number;
manifest numbers are nonnegative integers, modelled as `ℕ`). -/
def satU32 (n : ℕ) : ℕ := min n (M32 - 1)

/-- `json_aux::get_u32_from_json`. -/
def getU32FromJson (j : Json) : Except JsonError ℕ :=
  match j with
  | .num n => .ok (satU32 n)
  | _ => .error (.notANumber j)

/-- `json_aux::get_string_from_json`. -/
def getStringFromJson (j : Json) : Except JsonError String :=
  match j with
  | .str s => .ok s
  | _ => .error (.notAString j)

/-- The manifest JSON value `to_saf_archive` builds: one object per file
with `path`, optional `mime`, and `size` (the `HashMap` field order is
unspecified in the source; the model lists fields in insertion order). -/
def safManifestJson (files : List File) : Json :=
  Json.arr (files.map fun f =>
    Json.obj ([("path", Json.str f.name)]
      ++ (match f.mime with
          | some m => [("mime", Json.str m)]
          | Option.none => [])
      ++ [("size", Json.num f.data.length)]))

/-- `to_saf_archive`: magic bytes, LE `u32` manifest length, manifest JSON
text, then all payloads concatenated in order. -/
def to_saf_archive (stringify : Json → Option (List ℕ)) (files : List File) :
    Except SafError (List ℕ) :=
  match stringify (safManifestJson files) with
  | Option.none => .error (.manifestCorrupt "")
  | some mbytes =>
    .ok (safIdentifier ++ u32leBytes mbytes.length ++ mbytes
      ++ files.flatMap (fun f => f.data))

/-- The member loop of `from_saf_archive`: for each manifest entry, read
`path`, optional `mime` (missing becomes the empty string — note the result
is always `Some`), and `size`, then slice `size` payload bytes at the
running offset.  Non-object entries are skipped.  The outer `Option` models
the slice panic when the archive is shorter than the declared sizes. -/
def safReadFiles (saf : List ℕ) : List Json → ℕ → Option (Except SafError (List File))
  | [], _ => some (.ok [])
  | entry :: rest, offset =>
    match entry with
    | .obj o =>
      (match getStringFromJson (jsonIndex o "path") with
       | .error e => some (.error (.invalidJson e))
       | .ok path =>
         match (match jsonLookup o "mime" with
                | some m => getStringFromJson m
                | Option.none => .ok "") with
         | .error e => some (.error (.invalidJson e))
         | .ok mime =>
           match getU32FromJson (jsonIndex o "size") with
           | .error e => some (.error (.invalidJson e))
           | .ok size =>
             if saf.length < offset + size then Option.none
             else
               match safReadFiles saf rest (offset + size) with
               | Option.none => Option.none
               | some (.error e) => some (.error e)
               | some (.ok files) =>
                 some (.ok (File.new path ((saf.drop offset).take size) (some mime) :: files)))
    | _ => safReadFiles saf rest offset

/-- `from_saf_archive`: identifier check, manifest length, manifest parse,
then sequential payload slicing.  The outer `Option` models panics (slice
out of range, or invalid UTF-8 in the manifest — the parse parameter covers
decoding). -/
def from_saf_archive (parse : List ℕ → Option Json) (saf : List ℕ) :
    Option (Except SafError (List File)) :=
  if saf.length < 12 then some (.error .brokenFile)
  else if saf.take 12 ≠ safIdentifier then some (.error .notValidIdentifier)
  else if saf.length < 12 + 4 then some (.error .brokenFile)
  else
    let msize := saf.getD 12 0 + saf.getD 13 0 * 256 + saf.getD 14 0 * 65536 +
      saf.getD 15 0 * 16777216
    if saf.length < 16 + msize then Option.none
    else
      match parse ((saf.drop 16).take msize) with
      | Option.none => some (.error (.manifestCorrupt ""))
      | some j =>
        match j with
        | .arr entries => safReadFiles saf entries (16 + msize)
        | _ => some (.error (.invalidJson (.notAnArray j)))

/-! ### A concrete minified-JSON codec

Used to instantiate the codec parameters of the SAF theorems at concrete
inputs.  It models `tinyjson` on the fragment the manifests use: minified
output, string escapes for quote and backslash, nonnegative integer numbers,
ASCII text. -/

/-- Escape a character for a JSON string literal (quote and backslash; the
concrete witnesses use neither). -/
def escapeChar (c : Char) : List Char :=
  if c = '"' then ['\\', '"']
  else if c = '\\' then ['\\', '\\']
  else [c]

/-- Decimal digits of a natural number (structural fuel; 20 digits cover
every value in use). -/
def natDigitsAux : ℕ → ℕ → List Char
  | 0, _ => []
  | fuel+1, n =>
    if n < 10 then [Char.ofNat (48 + n)]
    else natDigitsAux fuel (n / 10) ++ [Char.ofNat (48 + n % 10)]

/-- Decimal representation of a natural number. -/
def natDigits (n : ℕ) : List Char := natDigitsAux 20 n

/-- Minified JSON serialization (depth-fueled so the kernel can evaluate
it; depth 32 covers every value in use). -/
def stringifyAux : ℕ → Json → List Char
  | 0, _ => []
  | _+1, .null => ['n','u','l','l']
  | _+1, .boolean b => if b then ['t','r','u','e'] else ['f','a','l','s','e']
  | _+1, .num n => natDigits n
  | _+1, .str s => ['"'] ++ s.data.flatMap escapeChar ++ ['"']
  | fuel+1, .arr elems =>
    ['['] ++ (List.intersperse [','] (elems.map (stringifyAux fuel))).flatten ++ [']']
  | fuel+1, .obj fields =>
    ['{'] ++ (List.intersperse [','] (fields.map fun kv =>
      ['"'] ++ kv.1.data.flatMap escapeChar ++ ['"', ':'] ++ stringifyAux fuel kv.2)).flatten
      ++ ['\x7d']

/-- Concrete stringify codec: minified JSON, ASCII bytes. -/
def jsonStringifyBytes (j : Json) : Option (List ℕ) :=
  some ((stringifyAux 32 j).map Char.toNat)

/-- Scan a JSON string literal (after the opening quote) up to the closing
quote, unescaping `\"` and `\\`. -/
def parseStringAux : ℕ → List Char → Option (List Char × List Char)
  | 0, _ => Option.none
  | _+1, [] => Option.none
  | fuel+1, c :: rest =>
    if c = '"' then some ([], rest)
    else if c = '\\' then
      match rest with
      | [] => Option.none
      | e :: rest2 =>
        match parseStringAux fuel rest2 with
        | Option.none => Option.none
        | some (s, r) =>
          if e = '"' ∨ e = '\\' then some (e :: s, r) else Option.none
    else
      match parseStringAux fuel rest with
      | Option.none => Option.none
      | some (s, r) => some (c :: s, r)

/-- Scan a run of decimal digits into a natural number. -/
def parseNatAux : List Char → ℕ → (ℕ × List Char)
  | [], acc => (acc, [])
  | c :: rest, acc =>
    if c.isDigit then parseNatAux rest (acc * 10 + (c.toNat - 48))
    else (acc, c :: rest)

mutual

/-- Recursive-descent JSON value parser (fueled). -/
def parseJsonAux : ℕ → List Char → Option (Json × List Char)
  | 0, _ => Option.none
  | fuel+1, cs =>
    match cs with
    | [] => Option.none
    | 'n' :: 'u' :: 'l' :: 'l' :: rest => some (.null, rest)
    | 't' :: 'r' :: 'u' :: 'e' :: rest => some (.boolean true, rest)
    | 'f' :: 'a' :: 'l' :: 's' :: 'e' :: rest => some (.boolean false, rest)
    | '"' :: rest =>
      match parseStringAux (rest.length + 1) rest with
      | Option.none => Option.none
      | some (s, r) => some (.str (String.mk s), r)
    | '[' :: rest =>
      (match rest with
       | ']' :: r2 => some (.arr [], r2)
       | _ =>
         match parseJsonListAux fuel rest with
         | Option.none => Option.none
         | some (elems, r2) => some (.arr elems, r2))
    | '{' :: rest =>
      (match rest with
       | '\x7d' :: r2 => some (.obj [], r2)
       | _ =>
         match parseJsonFieldsAux fuel rest with
         | Option.none => Option.none
         | some (fields, r2) => some (.obj fields, r2))
    | c :: rest =>
      if c.isDigit then
        match parseNatAux (c :: rest) 0 with
        | (n, r) => some (.num n, r)
      else Option.none

/-- Parse comma-separated JSON values up to `]`. -/
def parseJsonListAux : ℕ → List Char → Option (List Json × List Char)
  | 0, _ => Option.none
  | fuel+1, cs =>
    match parseJsonAux fuel cs with
    | Option.none => Option.none
    | some (j, r) =>
      match r with
      | ',' :: r2 =>
        (match parseJsonListAux fuel r2 with
         | Option.none => Option.none
         | some (elems, r3) => some (j :: elems, r3))
      | ']' :: r2 => some ([j], r2)
      | _ => Option.none

/-- Parse comma-separated `"key":value` pairs up to the closing brace. -/
def parseJsonFieldsAux : ℕ → List Char → Option (List (String × Json) × List Char)
  | 0, _ => Option.none
  | fuel+1, cs =>
    match cs with
    | '"' :: rest =>
      (match parseStringAux (rest.length + 1) rest with
       | Option.none => Option.none
       | some (k, r) =>
         match r with
         | ':' :: r2 =>
           (match parseJsonAux fuel r2 with
            | Option.none => Option.none
            | some (v, r3) =>
              match r3 with
              | ',' :: r4 =>
                (match parseJsonFieldsAux fuel r4 with
                 | Option.none => Option.none
                 | some (fields, r5) => some ((String.mk k, v) :: fields, r5))
              | '\x7d' :: r4 => some ([(String.mk k, v)], r4)
              | _ => Option.none)
         | _ => Option.none)
    | _ => Option.none

end

/-- Concrete parse codec: ASCII decode then recursive descent, requiring the
input to be consumed exactly. -/
def jsonParseBytes (bytes : List ℕ) : Option Json :=
  if bytes.all (fun b => b < 128) then
    match parseJsonAux (bytes.length + 1) (bytes.map Char.ofNat) with
    | some (j, []) => some j
    | _ => Option.none
  else Option.none

/-! ### Manifest parsing for blocks
(`Vector3::from_json`, `Placement::from_json`, `CompressionType::from_string`,
`Block::from_json`) -/

/-- `CompressionType::from_string`. -/
def CompressionType.fromString (s : String) : Except CompressionError CompressionType :=
  if s = "LZ4S" ∨ s = "lz4s" then .ok .lz4s
  else if s = "RAW" ∨ s = "raw" then .ok .none
  else .error (.unsupported s)

/-- `Vector3::<u32>::from_json`: a 3-element array of numbers (each cast
`as u32`, saturating). -/
def Vector3.fromJson (j : Json) : Except JsonError Vector3 :=
  match j with
  | .arr a =>
    if a.length ≠ 3 then .error (.notAVector3 j)
    else
      match a.getD 0 .null with
      | .num x =>
        (match a.getD 1 .null with
         | .num y =>
           (match a.getD 2 .null with
            | .num z => .ok ⟨satU32 x, satU32 y, satU32 z⟩
            | jz => .error (.notANumber jz))
         | jy => .error (.notANumber jy))
      | jx => .error (.notANumber jx)
  | _ => .error (.notAVector3 j)

/-- `Placement::from_json`. -/
def Placement.fromJson (blockIndex : ℕ) (j : Json) : Except PlacementError Placement :=
  match j with
  | .obj o =>
    (match Vector3.fromJson (jsonIndex o "position") with
     | .error e => .error (.invalidJson blockIndex e)
     | .ok position =>
       match getU32FromJson (jsonIndex o "block") with
       | .error e => .error (.invalidJson blockIndex e)
       | .ok b => .ok (Placement.new position b))
  | _ => .error (.invalidJson blockIndex (.notAnObject j))

/-- The placement-array loop of `Block::from_json`. -/
def parsePlacements (index : ℕ) : List Json → Except BlockError (List Placement)
  | [] => .ok []
  | el :: rest =>
    match Placement.fromJson index el with
    | .error e => .error (.invalidPlacement index e)
    | .ok p =>
      match parsePlacements index rest with
      | .error e => .error e
      | .ok ps => .ok (p :: ps)

/-- The `placements` field of `Block::from_json`: must be an array, parsed
elementwise. -/
def blockPlacementsFromJson (index : ℕ) (o : List (String × Json)) :
    Except BlockError (List Placement) :=
  match jsonIndex o "placements" with
  | .arr a => parsePlacements index a
  | p => .error (.invalidJson index (.notAnArray p))

/-- The optional `format` field of `Block::from_json`. -/
def blockFormatFromJson (index : ℕ) (o : List (String × Json)) :
    Except BlockError (Option ℕ) :=
  match jsonLookup o "format" with
  | some f =>
    (match getU32FromJson f with
     | .error e => .error (.invalidJson index e)
     | .ok n => .ok (some n))
  | Option.none => .ok Option.none

/-- `Block::from_json`: parse `dimensions` and `placements`, then the
optional `format`, then the optional `data` url with its `encoding`; when
`data` is present, attach bytes from the first file whose name equals the
url — if no file matches, the block is returned with `data`, `data_url` and
`encoding` all still `None` (no error). -/
def Block.fromJson (index : ℕ) (j : Json) (files : List File) :
    Except BlockError Block :=
  match j with
  | .obj o =>
    (match Vector3.fromJson (jsonIndex o "dimensions") with
     | .error e => .error (.invalidJson index e)
     | .ok dimensions =>
       match blockPlacementsFromJson index o with
       | .error e => .error e
       | .ok placements =>
         match blockFormatFromJson index o with
         | .error e => .error e
         | .ok format =>
           let b1 : Block :=
             { index := index, dimensions := dimensions, placements := placements
               format := format, data := Option.none, dataUrl := Option.none
               encoding := Option.none }
           match jsonLookup o "data" with
           | some d =>
             (match getStringFromJson d with
              | .error e => .error (.invalidJson index e)
              | .ok dataUrl =>
                match getStringFromJson (jsonIndex o "encoding") with
                | .error e => .error (.invalidJson index e)
                | .ok encStr =>
                  match CompressionType.fromString encStr with
                  | .error e => .error (.invalidCompression index e)
                  | .ok enc =>
                    match files.find? (fun f => f.name = dataUrl) with
                    | some file =>
                      .ok { b1 with dataUrl := some dataUrl, encoding := some enc
                                    data := some file.data }
                    | Option.none => .ok b1)
           | Option.none => .ok b1)
  | _ => .error (.invalidJson index (.notAnObject j))

/-! ### The stage-2 worker of the parallel raw-to-BVP pipeline
(`src/raw_to_bvp/parallel.rs`, `run_stage_2_worker`)

The dedupe mutex serializes the body of the worker loop, so every parallel
execution is equivalent to processing the stage-1 packets in some order; the
theorems below quantify over that order.  The shared state  (`block_map`,
`blocks_vec`, root `placements_vec`) and the stream of files sent to stage 3
are carried in `Stage2State`.  `xxh3_64` comes from the external
`xxhash_rust` crate, so the hash is a parameter (every theorem holds for an
arbitrary hash function).  The `BVPFile` fields the worker reads are
`formats` and `blocks`; its remaining fields (asset, modalities, block map,
file list) play no part in the embedded operations and are omitted. -/

structure BVPFile where
  blocks : List Block
  formats : List Format

structure StageOnePipelineResult where
  blockStart : Vector3
  blockEnd : Vector3
  formatIndex : ℕ
  parentBlockIndex : ℕ
deriving DecidableEq, Repr

structure Stage2State where
  blockMap : ℕ → Option ℕ
  blocksVec : List Block
  placementsVec : List Placement
  emittedFiles : List File

/-- Initial shared state: empty map, empty vectors. -/
def stage2Init : Stage2State :=
  { blockMap := fun _ => Option.none
    blocksVec := []
    placementsVec := []
    emittedFiles := [] }

/-- The no-dedupe path of the worker: reserve `block_id = blocks_vec.len() + 1`,
record the hash, push a block record carrying only a `data_url` (no data),
compress, queue the file for stage 3 and record the placement. -/
def stage2CreateNew (encoding : CompressionType) (st : Stage2State)
    (w : StageOnePipelineResult) (block : Block) (blockData : List ℕ)
    (h : ℕ) : Option Stage2State :=
  let blockId := st.blocksVec.length + 1
  let blockUrl := "blocks/block_" ++ toString blockId ++ ".raw"
  let newBlock : Block :=
    { Block.new blockId block.dimensions (some w.formatIndex) Option.none with
        encoding := some encoding
        format := block.format
        dataUrl := some blockUrl }
  match encoding.compress blockData with
  | Option.none => Option.none
  | some compressed =>
    some { blockMap := fun k => if k = h then some blockId else st.blockMap k
           blocksVec := st.blocksVec ++ [newBlock]
           placementsVec := st.placementsVec ++ [Placement.new w.blockStart blockId]
           emittedFiles := st.emittedFiles ++ [File.new blockUrl compressed Option.none] }

/-- The cut phase of the worker body: look up the format and parent block,
run `get_data_in_range` and extract the data.  `none` models the indexing
panics and the error returns that abort the run. -/
def packetCut (bvp : BVPFile) (w : StageOnePipelineResult) : Option (Block × List ℕ) :=
  match bvp.formats[w.formatIndex]? with
  | Option.none => Option.none
  | some format =>
    match bvp.blocks[w.parentBlockIndex]? with
    | Option.none => Option.none
    | some parent =>
      match parent.getDataInRange w.blockStart w.blockEnd format with
      | .error _ => Option.none
      | .ok block =>
        match block.data with
        | Option.none => Option.none
        | some blockData => some (block, blockData)

/-- One work packet through the stage-2 worker body.  `none` models an
aborted pipeline: a worker panic (the `.expect` on the block lookup — note
the map stores 1-based ids but the vector is 0-indexed) or an error return,
either of which kills the run. -/
def processPacket (hash : List ℕ → ℕ) (bvp : BVPFile) (encoding : CompressionType)
    (st : Stage2State) (w : StageOnePipelineResult) : Option Stage2State :=
  match packetCut bvp w with
  | Option.none => Option.none
  | some (block, blockData) =>
    let h := hash blockData
    match st.blockMap h with
    | some sameHashId =>
      (match st.blocksVec[sameHashId]? with
       | Option.none => Option.none
       | some sameHashBlock =>
         if sameHashBlock.isEqualData blockData then
           some { st with placementsVec :=
             st.placementsVec ++ [Placement.new w.blockStart sameHashId] }
         else
           stage2CreateNew encoding st w block blockData h)
    | Option.none => stage2CreateNew encoding st w block blockData h

/-- Processing a list of packets in order (one critical section per packet). -/
def runStage2 (hash : List ℕ → ℕ) (bvp : BVPFile) (encoding : CompressionType) :
    List StageOnePipelineResult → Stage2State → Option Stage2State
  | [], st => some st
  | w :: rest, st =>
    match processPacket hash bvp encoding st w with
    | Option.none => Option.none
    | some st2 => runStage2 hash bvp encoding rest st2

/-- Stage 1: one packet per cell of the grid `ceil(D / B)` (f32 division and
ceiling), iterated `x`, then `y`, then `z`, with `block_start = B * (x,y,z)`
and `block_end = min(block_start + B, D)`. -/
def stage1Packets (dimensions blockDimensions : Vector3) (rootBlockFormat : ℕ) :
    List StageOnePipelineResult :=
  let blockCount := dimensions.ceilDiv blockDimensions
  (tripleRange blockCount.x blockCount.y blockCount.z).map fun v =>
    { blockStart := blockDimensions.mulW v
      blockEnd := ((blockDimensions.mulW v).addW blockDimensions).minv dimensions
      formatIndex := rootBlockFormat
      parentBlockIndex := 0 }

/-! ### Concrete scenario: the spec's S2 instance
(4×4×4 volume of zero bytes, 2×2×2 blocks, mono u8, no compression) -/

/-- The shared `BVPFile` of the S2 run: one root block holding the 64 zero
bytes, one mono-u8 format. -/
def s2Bvp : BVPFile :=
  { blocks := [Block.new 0 ⟨4,4,4⟩ (some 0) (some (List.replicate 64 0))]
    formats := [monoU8] }

/-- The eight stage-1 work packets of the S2 run. -/
def s2Packets : List StageOnePipelineResult := stage1Packets ⟨4,4,4⟩ ⟨2,2,2⟩ 0

/-- The sub-block every S2 packet cuts: a fresh 2×2×2 leaf of eight zero
bytes. -/
def s2CutBlock : Block :=
  { index := 0, dimensions := ⟨2,2,2⟩, placements := [], format := some 0
    data := some (List.replicate 8 0), dataUrl := Option.none, encoding := Option.none }

/-! ## Theorems -/

open Bvp

theorem getD_set_ne (l : List ℕ) (m n v : ℕ) (h : m ≠ n) :
    (l.set m v).getD n 0 = l.getD n 0 := by
  simp [List.getD_eq_getElem?_getD, List.getElem?_set_ne h]

theorem getD_set_eq (l : List ℕ) (m v : ℕ) (h : m < l.length) :
    (l.set m v).getD m 0 = v := by
  simp [List.getD_eq_getElem?_getD, List.getElem?_set_self, h]

theorem foldl_set_length (w v : ℕ → ℕ) :
    ∀ (idxs : List ℕ) (dest : List ℕ),
      (idxs.foldl (fun d i => d.set (w i) (v i)) dest).length = dest.length := by
  intro idxs
  induction idxs with
  | nil => intro dest; rfl
  | cons a t ih =>
    intro dest
    rw [List.foldl_cons, ih, List.length_set]

theorem foldl_set_frame (w v : ℕ → ℕ) (j : ℕ) :
    ∀ (idxs : List ℕ) (dest : List ℕ), (∀ i ∈ idxs, w i ≠ j) →
      (idxs.foldl (fun d i => d.set (w i) (v i)) dest).getD j 0 = dest.getD j 0 := by
  intro idxs
  induction idxs with
  | nil => intro dest _; rfl
  | cons a t ih =>
    intro dest hw
    rw [List.foldl_cons, ih _ (fun i hi => hw i (List.mem_cons_of_mem a hi)),
      getD_set_ne _ _ _ _ (hw a (List.mem_cons_self a t))]

theorem foldl_set_write (w v : ℕ → ℕ) :
    ∀ (idxs : List ℕ) (dest : List ℕ) (i : ℕ), i ∈ idxs → idxs.Nodup →
      (∀ i2 ∈ idxs, w i2 = w i → i2 = i) → w i < dest.length →
      (idxs.foldl (fun d i => d.set (w i) (v i)) dest).getD (w i) 0 = v i := by
  intro idxs
  induction idxs with
  | nil => intro dest i hi; exact absurd hi (List.not_mem_nil i)
  | cons a t ih =>
    intro dest i hi hnd huniq hlt
    rw [List.foldl_cons]
    rcases List.mem_cons.1 hi with heq | hmem
    · subst heq
      have hnot : ∀ i2 ∈ t, w i2 ≠ w i := by
        intro i2 h2 hww
        have := huniq i2 (List.mem_cons_of_mem i h2) hww
        subst this
        exact (List.nodup_cons.1 hnd).1 h2
      rw [foldl_set_frame w v _ t _ hnot, getD_set_eq _ _ _ hlt]
    · exact ih _ i hmem (List.nodup_cons.1 hnd).2
        (fun i2 h2 hww => huniq i2 (List.mem_cons_of_mem a h2) hww)
        (by rw [List.length_set]; exact hlt)

/-! microblock copy lemmas -/

theorem copyMicroblock_length (src : List ℕ) (sm dm ms : ℕ) (dest : List ℕ) :
    (copyMicroblock src sm dm ms dest).length = dest.length :=
  foldl_set_length _ _ _ _

theorem copyMicroblock_frame (src : List ℕ) (sm dm ms : ℕ) (dest : List ℕ) (j : ℕ)
    (hj : ¬ (dm * ms ≤ j ∧ j < dm * ms + ms)) :
    (copyMicroblock src sm dm ms dest).getD j 0 = dest.getD j 0 := by
  apply foldl_set_frame
  intro i hi
  have : i < ms := List.mem_range.1 hi
  omega

theorem copyMicroblock_write (src : List ℕ) (sm dm ms : ℕ) (dest : List ℕ) (i : ℕ)
    (hi : i < ms) (hlt : i + dm * ms < dest.length) :
    (copyMicroblock src sm dm ms dest).getD (i + dm * ms) 0 = src.getD (i + sm * ms) 0 := by
  have h := foldl_set_write (fun i => i + dm * ms) (fun i => src.getD (i + sm * ms) 0)
    (List.range ms) dest i (List.mem_range.2 hi) (List.nodup_range ms)
    (fun i2 _ hww => by simp only at hww; omega) hlt
  exact h

/-! scatter/gather fold lemmas -/

theorem scatterFold_length (src : List ℕ) (smF dmF : Vector3 → ℕ) (ms : ℕ) :
    ∀ (triples : List Vector3) (dest : List ℕ),
      ((triples.foldl (fun d l => copyMicroblock src (smF l) (dmF l) ms d) dest)).length
        = dest.length := by
  intro triples
  induction triples with
  | nil => intro dest; rfl
  | cons a t ih =>
    intro dest
    rw [List.foldl_cons, ih, copyMicroblock_length]

theorem scatterFold_frame (src : List ℕ) (smF dmF : Vector3 → ℕ) (ms : ℕ) (j : ℕ) :
    ∀ (triples : List Vector3) (dest : List ℕ),
      (∀ l ∈ triples, ¬ (dmF l * ms ≤ j ∧ j < dmF l * ms + ms)) →
      ((triples.foldl (fun d l => copyMicroblock src (smF l) (dmF l) ms d) dest)).getD j 0
        = dest.getD j 0 := by
  intro triples
  induction triples with
  | nil => intro dest _; rfl
  | cons a t ih =>
    intro dest hw
    rw [List.foldl_cons, ih _ (fun l hl => hw l (List.mem_cons_of_mem a hl)),
      copyMicroblock_frame _ _ _ _ _ _ (hw a (List.mem_cons_self a t))]

theorem scatterFold_write (src : List ℕ) (smF dmF : Vector3 → ℕ) (ms : ℕ) :
    ∀ (triples : List Vector3) (dest : List ℕ) (l : Vector3) (i : ℕ),
      l ∈ triples → triples.Nodup →
      (∀ l2 ∈ triples, dmF l2 = dmF l → l2 = l) →
      i < ms → i + dmF l * ms < dest.length →
      ((triples.foldl (fun d l => copyMicroblock src (smF l) (dmF l) ms d) dest)).getD
        (i + dmF l * ms) 0 = src.getD (i + smF l * ms) 0 := by
  intro triples
  induction triples with
  | nil => intro dest l i hl; exact absurd hl (List.not_mem_nil l)
  | cons a t ih =>
    intro dest l i hl hnd huniq hi hlt
    rw [List.foldl_cons]
    rcases List.mem_cons.1 hl with heq | hmem
    · subst heq
      have hnot : ∀ l2 ∈ t, ¬ (dmF l2 * ms ≤ i + dmF l * ms ∧
          i + dmF l * ms < dmF l2 * ms + ms) := by
        intro l2 h2 hww
        have hms : 0 < ms := by omega
        have hdm : dmF l2 = dmF l := by
          have h1 : (i + dmF l * ms) / ms = dmF l := by
            rw [Nat.add_mul_div_right _ _ hms, Nat.div_eq_of_lt hi]
            omega
          have h2d : dmF l2 * ms ≤ i + dmF l * ms ∧ i + dmF l * ms < dmF l2 * ms + ms := hww
          -- from the sandwich, the quotient by ms is dmF l2
          have h3 : (i + dmF l * ms) / ms = dmF l2 := by
            obtain ⟨hlo, hhi2⟩ := h2d
            obtain ⟨k, hk⟩ := Nat.le.dest hlo
            have hkms : k < ms := by omega
            rw [← hk, Nat.add_comm, Nat.add_mul_div_right _ _ hms, Nat.div_eq_of_lt hkms]
            omega
          omega
        have := huniq l2 (List.mem_cons_of_mem l h2) hdm
        subst this
        exact (List.nodup_cons.1 hnd).1 h2
      rw [scatterFold_frame _ _ _ _ _ t _ hnot, copyMicroblock_write _ _ _ _ _ _ hi hlt]
    · exact ih _ l i hmem (List.nodup_cons.1 hnd).2
        (fun l2 h2 hww => huniq l2 (List.mem_cons_of_mem a h2) hww)
        hi (by rw [copyMicroblock_length]; exact hlt)

/-! tripleRange membership and nodup, linearIndex arithmetic -/

theorem mem_tripleRange (v : Vector3) (nx ny nz : ℕ) :
    v ∈ tripleRange nx ny nz ↔ v.x < nx ∧ v.y < ny ∧ v.z < nz := by
  constructor
  · intro h
    rw [tripleRange] at h
    obtain ⟨x, hx, h2⟩ := List.mem_flatMap.1 h
    obtain ⟨y, hy, h3⟩ := List.mem_flatMap.1 h2
    obtain ⟨z, hz, h4⟩ := List.mem_map.1 h3
    subst h4
    exact ⟨List.mem_range.1 hx, List.mem_range.1 hy, List.mem_range.1 hz⟩
  · intro ⟨hx, hy, hz⟩
    rw [tripleRange]
    exact List.mem_flatMap.2 ⟨v.x, List.mem_range.2 hx,
      List.mem_flatMap.2 ⟨v.y, List.mem_range.2 hy,
        List.mem_map.2 ⟨v.z, List.mem_range.2 hz, rfl⟩⟩⟩

theorem tripleRange_nodup (nx ny nz : ℕ) : (tripleRange nx ny nz).Nodup := by
  rw [tripleRange]
  apply List.nodup_flatMap.2
  refine ⟨?_, ?_⟩
  · intro x _
    apply List.nodup_flatMap.2
    refine ⟨?_, ?_⟩
    · intro y _
      exact (List.nodup_range nz).map (fun a b h => by injection h)
    · apply List.Pairwise.imp ?_ (List.nodup_range ny)
      intro y1 y2 hne
      intro t h1 h2
      obtain ⟨z1, _, rfl⟩ := List.mem_map.1 h1
      obtain ⟨z2, _, h⟩ := List.mem_map.1 h2
      injection h with h1x h1y
      exact hne (by omega)
  · apply List.Pairwise.imp ?_ (List.nodup_range nx)
    intro x1 x2 hne
    intro t h1 h2
    obtain ⟨y1, _, h1b⟩ := List.mem_flatMap.1 h1
    obtain ⟨y2, _, h2b⟩ := List.mem_flatMap.1 h2
    obtain ⟨z1, _, rfl⟩ := List.mem_map.1 h1b
    obtain ⟨z2, _, hh⟩ := List.mem_map.1 h2b
    injection hh with hhx hrest
    exact hne (by omega)

/-- In the no-overflow regime the wrapped `u32` linear index is plain
arithmetic. -/
theorem linearIndex_eq (i dim : Vector3) (hx : i.x < dim.x) (hy : i.y < dim.y)
    (hz : i.z < dim.z) (hP : dim.x * dim.y * dim.z < M32) :
    Vector3.linearIndex i dim = i.x + i.y * dim.x + i.z * dim.x * dim.y := by
  have f1 : (i.y + 1) * dim.x ≤ dim.y * dim.x := Nat.mul_le_mul_right dim.x hy
  have f1e : (i.y + 1) * dim.x = i.y * dim.x + dim.x := by ring
  have f1f : dim.y * dim.x = dim.x * dim.y := by ring
  have f2 : (i.z + 1) * (dim.x * dim.y) ≤ dim.z * (dim.x * dim.y) :=
    Nat.mul_le_mul_right (dim.x * dim.y) hz
  have f2e : (i.z + 1) * (dim.x * dim.y) = i.z * dim.x * dim.y + dim.x * dim.y := by ring
  have f2f : dim.z * (dim.x * dim.y) = dim.x * dim.y * dim.z := by ring
  have f4 : i.z * dim.x ≤ i.z * dim.x * dim.y := Nat.le_mul_of_pos_right _ (by omega)
  have f5 : dim.x * dim.y ≤ dim.x * dim.y * dim.z := Nat.le_mul_of_pos_right _ (by omega)
  have hM : M32 = 4294967296 := rfl
  have hA : i.y * dim.x % M32 = i.y * dim.x := Nat.mod_eq_of_lt (by omega)
  have hB : i.z * dim.x % M32 = i.z * dim.x := Nat.mod_eq_of_lt (by omega)
  rw [Vector3.linearIndex, hA, hB]
  have hIA : (i.x + i.y * dim.x) % M32 = i.x + i.y * dim.x := Nat.mod_eq_of_lt (by omega)
  have hC : i.z * dim.x * dim.y % M32 = i.z * dim.x * dim.y := Nat.mod_eq_of_lt (by omega)
  rw [hIA, hC]
  exact Nat.mod_eq_of_lt (by omega)

/-- Digit decomposition of the linear index: `mod`/`div` by the extents
recover the coordinates. -/
theorem linearIndex_decomp (i dim : Vector3) (hx : i.x < dim.x) (hy : i.y < dim.y)
    (hz : i.z < dim.z) (hP : dim.x * dim.y * dim.z < M32) :
    Vector3.linearIndex i dim % dim.x = i.x ∧
    Vector3.linearIndex i dim / dim.x % dim.y = i.y ∧
    Vector3.linearIndex i dim / (dim.x * dim.y) = i.z := by
  rw [linearIndex_eq i dim hx hy hz hP]
  have hX : 0 < dim.x := by omega
  have hY : 0 < dim.y := by omega
  have e1 : i.x + i.y * dim.x + i.z * dim.x * dim.y = i.x + dim.x * (i.y + dim.y * i.z) := by
    ring
  have e2 : i.x + i.y * dim.x + i.z * dim.x * dim.y = (i.x + i.y * dim.x) + (dim.x * dim.y) * i.z := by
    ring
  refine ⟨?_, ?_, ?_⟩
  · rw [e1, Nat.add_mul_mod_self_left, Nat.mod_eq_of_lt hx]
  · rw [e1, Nat.add_mul_div_left _ _ hX, Nat.div_eq_of_lt hx, Nat.zero_add,
      Nat.add_mul_mod_self_left, Nat.mod_eq_of_lt hy]
  · have hxy : i.x + i.y * dim.x < dim.x * dim.y := by
      have g1 : (i.y + 1) * dim.x ≤ dim.y * dim.x := Nat.mul_le_mul_right dim.x hy
      have g2 : (i.y + 1) * dim.x = i.y * dim.x + dim.x := by ring
      have g3 : dim.y * dim.x = dim.x * dim.y := by ring
      omega
    have hXY : 0 < dim.x * dim.y := by omega
    rw [e2, Nat.add_mul_div_left _ _ hXY, Nat.div_eq_of_lt hxy, Nat.zero_add]

/-- Injectivity of the linear index inside the extent box. -/
theorem linearIndex_inj (a b dim : Vector3)
    (hax : a.x < dim.x) (hay : a.y < dim.y) (haz : a.z < dim.z)
    (hbx : b.x < dim.x) (hby : b.y < dim.y) (hbz : b.z < dim.z)
    (hP : dim.x * dim.y * dim.z < M32)
    (h : Vector3.linearIndex a dim = Vector3.linearIndex b dim) : a = b := by
  obtain ⟨a1, a2, a3⟩ := linearIndex_decomp a dim hax hay haz hP
  obtain ⟨b1, b2, b3⟩ := linearIndex_decomp b dim hbx hby hbz hP
  rw [h] at a1 a2 a3
  cases a
  cases b
  simp only at a1 a2 a3 b1 b2 b3 ⊢
  rw [Vector3.mk.injEq]
  omega

/-! guard and arithmetic helper lemmas -/

theorem subW_eq (v w : Vector3) (h : Vector3.le3 w v)
    (hv : v.x < M32 ∧ v.y < M32 ∧ v.z < M32) :
    v.subW w = ⟨v.x - w.x, v.y - w.y, v.z - w.z⟩ := by
  obtain ⟨h1, h2, h3⟩ := h
  obtain ⟨g1, g2, g3⟩ := hv
  rw [Vector3.subW, Vector3.mk.injEq]
  simp only [M32] at g1 g2 g3 ⊢
  refine ⟨?_, ?_, ?_⟩ <;> omega

theorem addW_eq (v w : Vector3) (hv : v.x + w.x < M32) (hy : v.y + w.y < M32)
    (hz : v.z + w.z < M32) :
    v.addW w = ⟨v.x + w.x, v.y + w.y, v.z + w.z⟩ := by
  rw [Vector3.addW, Vector3.mk.injEq]
  exact ⟨Nat.mod_eq_of_lt hv, Nat.mod_eq_of_lt hy, Nat.mod_eq_of_lt hz⟩

theorem isAnyGt_false_of_le3 (v w : Vector3) (h : Vector3.le3 v w) :
    v.isAnyGt w = false := by
  obtain ⟨h1, h2, h3⟩ := h
  simp [Vector3.isAnyGt]
  omega

theorem isAnyDiv_false_of_dvd3 (v w : Vector3)
    (h : Vector3.dvd3 w v) : v.isAnyDiv w = false := by
  obtain ⟨h1, h2, h3⟩ := h
  have e1 : v.x % w.x = 0 := Nat.mod_eq_zero_of_dvd h1
  have e2 : v.y % w.y = 0 := Nat.mod_eq_zero_of_dvd h2
  have e3 : v.z % w.z = 0 := Nat.mod_eq_zero_of_dvd h3
  simp [Vector3.isAnyDiv, e1, e2, e3]

/-- The plain linear index is bounded by the box volume. -/
theorem linear_plain_lt (x y z X Y Z : ℕ) (hx : x < X) (hy : y < Y) (hz : z < Z) :
    x + y * X + z * X * Y < X * Y * Z := by
  have f1 : (y + 1) * X ≤ Y * X := Nat.mul_le_mul_right X hy
  have f1e : (y + 1) * X = y * X + X := by ring
  have f1f : Y * X = X * Y := by ring
  have f2 : (z + 1) * (X * Y) ≤ Z * (X * Y) := Nat.mul_le_mul_right (X * Y) hz
  have f2e : (z + 1) * (X * Y) = z * X * Y + X * Y := by ring
  have f2f : Z * (X * Y) = X * Y * Z := by ring
  omega

/-- `count_space` in the exact regime (helper shared by several claims). -/
theorem countSpace_exact (f : Format) (D : Vector3)
    (hmd : Vector3.pos3 f.microblockDimensions)
    (hdvd : Vector3.dvd3 f.microblockDimensions D)
    (hsm : Vector3.small24 D)
    (hbound : f.microblockSize * (D.x / f.microblockDimensions.x *
      (D.y / f.microblockDimensions.y) * (D.z / f.microblockDimensions.z)) < M32) :
    f.countSpace D = f.microblockSize * (D.x / f.microblockDimensions.x *
      (D.y / f.microblockDimensions.y) * (D.z / f.microblockDimensions.z)) := by
  obtain ⟨hmx, hmy, hmz⟩ := hmd
  obtain ⟨hdx, hdy, hdz⟩ := hdvd
  obtain ⟨hsx, hsy, hsz⟩ := hsm
  rw [Format.countSpace, Format.countMicroblocks, Vector3.divToU32v, Vector3.multiplyElements]
  simp only
  rw [divToU32_exact D.x f.microblockDimensions.x hmx hdx hsx,
      divToU32_exact D.y f.microblockDimensions.y hmy hdy hsy,
      divToU32_exact D.z f.microblockDimensions.z hmz hdz hsz]
  set qx := D.x / f.microblockDimensions.x
  set qy := D.y / f.microblockDimensions.y
  set qz := D.z / f.microblockDimensions.z
  set ms := f.microblockSize
  rcases Nat.eq_zero_or_pos ms with hms0 | hms1
  · rw [hms0]
    simp
  rcases Nat.eq_zero_or_pos qz with hqz0 | hqz1
  · rw [hqz0]
    simp
  have hP : qx * qy * qz < M32 := by
    have h1 : qx * qy * qz ≤ ms * (qx * qy * qz) := Nat.le_mul_of_pos_left _ hms1
    omega
  have hxy : qx * qy < M32 := by
    have h2 : qx * qy ≤ qx * qy * qz := Nat.le_mul_of_pos_right _ hqz1
    omega
  rw [Nat.mod_eq_of_lt hxy, Nat.mod_eq_of_lt hP, Nat.mod_eq_of_lt hbound]

/-! ### The broken dedupe path of the stage-2 worker (claims C1, C2)

When two packets cut byte-identical buffers, the first creates block id 1
(stored at vector index 0) and records the hash; the second finds the hash,
indexes `blocks_vec` with the 1-based id — out of bounds for a 1-element
vector — and dies on the `.expect`.  (Even when the lookup lands on some
block, that block was stored without data, so `is_equal_data` returns
`false` and a second file is written: deduplication can never succeed.) -/

theorem runStage2_duplicate_panics (hash : List ℕ → ℕ) (bvp : BVPFile)
    (blk : Block) (buf : List ℕ) (p q : StageOnePipelineResult)
    (rest : List StageOnePipelineResult)
    (hp : packetCut bvp p = some (blk, buf))
    (hq : packetCut bvp q = some (blk, buf)) :
    runStage2 hash bvp CompressionType.none (p :: q :: rest) stage2Init = Option.none := by
  have hstep1 : processPacket hash bvp CompressionType.none stage2Init p =
      some { blockMap := fun k => if k = hash buf then some 1 else Option.none
             blocksVec := [{ Block.new 1 blk.dimensions (some p.formatIndex) Option.none with
                             encoding := some CompressionType.none
                             format := blk.format
                             dataUrl := some "blocks/block_1.raw" }]
             placementsVec := [Placement.new p.blockStart 1]
             emittedFiles := [File.new "blocks/block_1.raw" buf Option.none] } := by
    rw [processPacket, hp]
    rfl
  show (match processPacket hash bvp CompressionType.none stage2Init p with
        | Option.none => Option.none
        | some st2 => runStage2 hash bvp CompressionType.none (q :: rest) st2) = Option.none
  rw [hstep1]
  show (match processPacket hash bvp CompressionType.none _ q with
        | Option.none => Option.none
        | some st2 => runStage2 hash bvp CompressionType.none rest st2) = Option.none
  rw [processPacket, hq]
  simp only [if_pos rfl]
  rfl

/-- C1: the claim says byte-identical sub-block buffers collapse to one
stored block with both placements referencing its id.  The code cannot do
this: in the S2 scenario (4×4×4 zero volume, 2×2×2 blocks, mono u8), any
two packets cut byte-identical buffers, and processing them from the fresh
shared state aborts the pipeline — the second packet's dedupe lookup indexes
`blocks_vec` with the 1-based block id (`blocks_vec.get(1)` on a 1-element
vector) and panics on the `.expect`, for every possible hash function. -/
theorem C1_stable_dedupe_code_bug (hash : List ℕ → ℕ)
    (p q : StageOnePipelineResult) (hp : p ∈ s2Packets) (hq : q ∈ s2Packets) :
    runStage2 hash s2Bvp CompressionType.none [p, q] stage2Init = Option.none := by
  have hcut : ∀ r ∈ s2Packets, packetCut s2Bvp r = some (s2CutBlock, List.replicate 8 0) := by
    decide
  exact runStage2_duplicate_panics hash s2Bvp _ _ p q [] (hcut p hp) (hcut q hq)

theorem C1_stable_dedupe_code_bug_witness :
    runStage2 (fun _ => 0) s2Bvp CompressionType.none
      [{ blockStart := ⟨0,0,0⟩, blockEnd := ⟨2,2,2⟩, formatIndex := 0, parentBlockIndex := 0 },
       { blockStart := ⟨0,0,2⟩, blockEnd := ⟨2,2,4⟩, formatIndex := 0, parentBlockIndex := 0 }]
      stage2Init = Option.none :=
  C1_stable_dedupe_code_bug (fun _ => 0) _ _ (by decide) (by decide)

/-- C2: the round-trip identity cannot hold on the code as written: for the
64-byte all-zero input (dimensions 4×4×4, block dimensions 2×2×2, mono u8),
the stage-2 phase of `raw_to_bvp_parallel` aborts with a worker panic in
every possible processing order (the dedupe lookup indexes `blocks_vec` with
a 1-based id), so no archive is produced and nothing can be converted
back. -/
theorem C2_roundtrip_code_bug (hash : List ℕ → ℕ)
    (ps : List StageOnePipelineResult) (hperm : ps.Perm s2Packets) :
    runStage2 hash s2Bvp CompressionType.none ps stage2Init = Option.none := by
  have hcut : ∀ r ∈ s2Packets, packetCut s2Bvp r = some (s2CutBlock, List.replicate 8 0) := by
    decide
  have hlen : ps.length = 8 := by
    rw [hperm.length_eq]
    decide
  match ps, hlen with
  | p :: q :: rest, _ =>
    have hsub := hperm.subset
    exact runStage2_duplicate_panics hash s2Bvp _ _ p q rest
      (hcut p (hsub (List.mem_cons_self p _)))
      (hcut q (hsub (List.mem_cons_of_mem p (List.mem_cons_self q _))))

theorem C2_roundtrip_code_bug_witness :
    runStage2 (fun _ => 0) s2Bvp CompressionType.none s2Packets stage2Init = Option.none :=
  C2_roundtrip_code_bug (fun _ => 0) s2Packets (List.Perm.refl _)

/-! ### LZ4S on the empty input (claim C9) -/

/-- C9 counterexample: compressing the empty input does not produce output
consisting solely of an end token preceded by a zero-literal token (which
would be `[0x00, 0x00]`): the actual output is `[0x00, 0x01, 0x00]` — the
zero-literal token followed by the synthetic little-endian offset `1`, with
no end token (none is emitted when there are no literals). -/
theorem C9_lz4s_empty_counterexample :
    compress_lz4s [] = some [0, 1, 0] ∧ compress_lz4s [] ≠ some [0, 0] := by
  decide

/-- C9 amended: compressing the empty input yields exactly
`[0x00, 0x01, 0x00]` — a zero-literal token, the synthetic offset `1`
(little-endian u16), and no end token — and the decoder yields the empty
sequence on it (it stops at the leading zero token). -/
theorem C9_lz4s_empty_amended :
    compress_lz4s [] = some [0, 1, 0] ∧ decompress_lz4s [0, 1, 0] 0 = some [] := by
  decide

/-! ### `count_space` arithmetic (claim C8) -/

/-- C8 counterexample: `count_space` is not exact integer arithmetic.  With
the mono u8 format (microblock 1×1×1, 1 byte) and dimensions
`(65536, 65536, 1)` — divisible by the microblock dimensions — the exact
byte count is `2^32`, but `multiply_elements` wraps `u32` multiplication and
`count_space` returns `0`. -/
theorem C8_count_space_counterexample :
    Format.countSpace monoU8 ⟨65536, 65536, 1⟩ ≠
      monoU8.microblockSize * (65536 / monoU8.microblockDimensions.x *
        (65536 / monoU8.microblockDimensions.y) *
        (1 / monoU8.microblockDimensions.z)) := by
  decide

/-- C8 amended: for dimensions divisible by the (positive) microblock
dimensions, with all components below `2^24` (so the `f32` division path is
exact) and the exact byte count below `2^32` (so the wrapping `u32`
multiplications do not overflow), `count_space` returns exactly
`microblock_size · (D.x/md.x) · (D.y/md.y) · (D.z/md.z)`. -/
theorem C8_count_space_exact (f : Format) (D : Vector3)
    (hmd : Vector3.pos3 f.microblockDimensions)
    (hdvd : Vector3.dvd3 f.microblockDimensions D)
    (hsm : Vector3.small24 D)
    (hbound : f.microblockSize * (D.x / f.microblockDimensions.x *
      (D.y / f.microblockDimensions.y) * (D.z / f.microblockDimensions.z)) < M32) :
    f.countSpace D = f.microblockSize * (D.x / f.microblockDimensions.x *
      (D.y / f.microblockDimensions.y) * (D.z / f.microblockDimensions.z)) :=
  countSpace_exact f D hmd hdvd hsm hbound

theorem C8_count_space_exact_witness :
    Format.countSpace monoU8 ⟨4, 4, 4⟩ = monoU8.microblockSize *
      (4 / monoU8.microblockDimensions.x * (4 / monoU8.microblockDimensions.y) *
        (4 / monoU8.microblockDimensions.z)) :=
  C8_count_space_exact monoU8 ⟨4, 4, 4⟩ (by decide) (by decide) (by decide) (by decide)

/-! ### `Block::from_json` with a missing data file (claim C10) -/

/-- C10: when the block JSON parses cleanly (valid dimensions, placements,
optional format, a `data` string, a valid `encoding` string) but no supplied
file has a name equal to the `data` url, `Block::from_json` still returns
`Ok`, with `data`, `data_url` and `encoding` all `None`. -/
theorem C10_from_json_missing_file (index : ℕ) (o : List (String × Json))
    (files : List File) (dims : Vector3) (ps : List Placement) (fmt : Option ℕ)
    (url encStr : String) (enc : CompressionType)
    (hdims : Vector3.fromJson (jsonIndex o "dimensions") = .ok dims)
    (hpl : blockPlacementsFromJson index o = .ok ps)
    (hfmt : blockFormatFromJson index o = .ok fmt)
    (hdata : jsonLookup o "data" = some (Json.str url))
    (henc : jsonIndex o "encoding" = Json.str encStr)
    (hencok : CompressionType.fromString encStr = .ok enc)
    (hmiss : ∀ f ∈ files, f.name ≠ url) :
    Block.fromJson index (Json.obj o) files =
      .ok { index := index, dimensions := dims, placements := ps, format := fmt
            data := Option.none, dataUrl := Option.none, encoding := Option.none } := by
  have hfind : files.find? (fun f => f.name = url) = Option.none := by
    rw [List.find?_eq_none]
    intro f hf
    simpa using hmiss f hf
  rw [Block.fromJson, hdims, hpl, hfmt, hdata, henc]
  simp only [getStringFromJson]
  rw [hencok, hfind]

theorem C10_from_json_missing_file_witness :
    Block.fromJson 3
      (Json.obj [("dimensions", Json.arr [Json.num 2, Json.num 2, Json.num 2]),
                 ("placements", Json.arr []),
                 ("data", Json.str "blocks/block_1.raw"),
                 ("encoding", Json.str "raw")])
      [File.new "blocks/block_2.raw" [1, 2, 3] Option.none] =
      .ok { index := 3, dimensions := ⟨2, 2, 2⟩, placements := [], format := Option.none
            data := Option.none, dataUrl := Option.none, encoding := Option.none } :=
  C10_from_json_missing_file 3 _ _ ⟨2, 2, 2⟩ [] Option.none "blocks/block_1.raw" "raw"
    CompressionType.none rfl rfl rfl rfl rfl rfl (by decide)

/-! ### The dead `StartGreaterThanEnd` guard (claim C6) -/

theorem flatMap_const_nil {α β : Type} (l : List α) :
    (l.flatMap fun _ => ([] : List β)) = [] := by
  induction l with
  | nil => rfl
  | cons a t ih => simp [List.flatMap_cons, ih]

theorem tripleRange_y_zero (nx nz : ℕ) : tripleRange nx 0 nz = [] := by
  rw [tripleRange]
  simp only [List.range_zero, List.flatMap_nil]
  exact flatMap_const_nil _

/-- An unsigned vector is never componentwise below zero: the
`extent.is_any_lt((0,0,0))` guard in both copy operations can never fire,
so the `StartGreaterThanEnd` error is unreachable. -/
theorem isAnyLt_zero_false (v : Vector3) : v.isAnyLt ⟨0, 0, 0⟩ = false := by
  simp [Vector3.isAnyLt]

/-- C6: the claim says `get_data_in_range` fails with `StartGreaterThanEnd`
whenever some component of `start` exceeds the corresponding component of
`end`.  It cannot: `end - start` is unsigned `u32` subtraction, which wraps
in release builds (and panics in debug builds), and the guard
`extent.is_any_lt((0,0,0))` is identically false on unsigned values.  At the
failing input — a 2×2×2 mono-u8 block with 8 data bytes, `start = (1,0,0)`,
`end = (0,0,0)` — the extent wraps to `(4294967295, 0, 0)`, every check
passes, and the call returns `Ok` with a degenerate empty block instead of
the claimed error. -/
theorem C6_start_greater_than_end_code_bug :
    (Block.new 0 ⟨2,2,2⟩ (some 0) (some (List.replicate 8 0))).getDataInRange
      ⟨1,0,0⟩ ⟨0,0,0⟩ monoU8 =
    .ok { index := 0, dimensions := ⟨4294967295, 0, 0⟩, placements := []
          format := some 0, data := some [], dataUrl := Option.none
          encoding := Option.none } := by
  have hz : divToU32 0 1 = 0 := by decide
  have hsub : Vector3.subW ⟨0,0,0⟩ ⟨1,0,0⟩ = ⟨4294967295, 0, 0⟩ := by decide
  rw [Block.getDataInRange]
  simp only [Block.new, hsub]
  rw [if_neg (by decide), if_neg (by decide), if_neg (by decide), if_neg (by decide),
      if_neg (by decide)]
  simp only [Vector3.divToU32v, Format.countSpace, Format.countMicroblocks,
    Vector3.multiplyElements, monoU8, hz]
  simp only [Nat.mul_zero, Nat.zero_mod, Nat.mul_one]
  rw [tripleRange_y_zero]
  simp [List.foldl_nil, List.replicate]

set_option maxHeartbeats 1000000

/-- C3 amended: for a block with data, a microblock-aligned in-bounds range
`[start, end)` with `start ≤ end` componentwise, `get_data_in_range`
(copy_out) returns `Ok` with a fresh leaf block of dimensions `end - start`
whose buffer satisfies the microblock copy law: the `ms` destination bytes at
`linear_index((x,y,z), extent/md) · ms` equal the `ms` source bytes at
`linear_index((x,y,z) + start/md, dims/md) · ms`, for every microblock
coordinate `(x,y,z)` of the extent box.  Stated in the exact regime: all
dimensions below `2^24` and total byte counts below `2^32`, where the `f32`
division path and the wrapping `u32` arithmetic are exact. -/
theorem C3_copy_out_law (blk : Block) (start end_ : Vector3) (fmt : Format) (src : List ℕ)
    (hdata : blk.data = some src)
    (hmd : Vector3.pos3 fmt.microblockDimensions)
    (hms : 0 < fmt.microblockSize)
    (hse : Vector3.le3 start end_)
    (hed : Vector3.le3 end_ blk.dimensions)
    (hsa : Vector3.dvd3 fmt.microblockDimensions start)
    (hea : Vector3.dvd3 fmt.microblockDimensions
      ⟨end_.x - start.x, end_.y - start.y, end_.z - start.z⟩)
    (hda : Vector3.dvd3 fmt.microblockDimensions blk.dimensions)
    (hsm : Vector3.small24 blk.dimensions)
    (hbytes : fmt.microblockSize * (blk.dimensions.x / fmt.microblockDimensions.x *
      (blk.dimensions.y / fmt.microblockDimensions.y) *
      (blk.dimensions.z / fmt.microblockDimensions.z)) < M32) :
    ∃ dest : List ℕ,
      blk.getDataInRange start end_ fmt = .ok
        { index := 0
          dimensions := ⟨end_.x - start.x, end_.y - start.y, end_.z - start.z⟩
          placements := []
          format := blk.format
          data := some dest
          dataUrl := Option.none
          encoding := Option.none } ∧
      dest.length = fmt.microblockSize *
        ((end_.x - start.x) / fmt.microblockDimensions.x *
         ((end_.y - start.y) / fmt.microblockDimensions.y) *
         ((end_.z - start.z) / fmt.microblockDimensions.z)) ∧
      (∀ lx ly lz i,
        lx < (end_.x - start.x) / fmt.microblockDimensions.x →
        ly < (end_.y - start.y) / fmt.microblockDimensions.y →
        lz < (end_.z - start.z) / fmt.microblockDimensions.z →
        i < fmt.microblockSize →
        dest.getD ((lx + ly * ((end_.x - start.x) / fmt.microblockDimensions.x) +
            lz * ((end_.x - start.x) / fmt.microblockDimensions.x) *
              ((end_.y - start.y) / fmt.microblockDimensions.y)) * fmt.microblockSize + i) 0 =
        src.getD (((lx + start.x / fmt.microblockDimensions.x) +
            (ly + start.y / fmt.microblockDimensions.y) *
              (blk.dimensions.x / fmt.microblockDimensions.x) +
            (lz + start.z / fmt.microblockDimensions.z) *
              (blk.dimensions.x / fmt.microblockDimensions.x) *
              (blk.dimensions.y / fmt.microblockDimensions.y)) * fmt.microblockSize + i) 0) := by
  obtain ⟨hmdx, hmdy, hmdz⟩ := hmd
  obtain ⟨hsex, hsey, hsez⟩ := hse
  obtain ⟨hedx, hedy, hedz⟩ := hed
  obtain ⟨hsax, hsay, hsaz⟩ := hsa
  obtain ⟨heax, heay, heaz⟩ := hea
  obtain ⟨hdax, hday, hdaz⟩ := hda
  obtain ⟨hsmx, hsmy, hsmz⟩ := hsm
  have hM2432 : M24 < M32 := by norm_num [M24, M32]
  have hsub : end_.subW start = ⟨end_.x - start.x, end_.y - start.y, end_.z - start.z⟩ :=
    subW_eq end_ start ⟨hsex, hsey, hsez⟩ ⟨by omega, by omega, by omega⟩
  -- shorthand
  set ex := end_.x - start.x with hexdef
  set ey := end_.y - start.y with heydef
  set ez := end_.z - start.z with hezdef
  set mdx := fmt.microblockDimensions.x with hmdxdef
  set mdy := fmt.microblockDimensions.y with hmdydef
  set mdz := fmt.microblockDimensions.z with hmdzdef
  set ms := fmt.microblockSize with hmsdef
  set DX := blk.dimensions.x with hDXdef
  set DY := blk.dimensions.y with hDYdef
  set DZ := blk.dimensions.z with hDZdef
  -- exact f32 divisions
  have hairx : divToU32 ex mdx = ex / mdx := divToU32_exact _ _ hmdx heax (by omega)
  have hairy : divToU32 ey mdy = ey / mdy := divToU32_exact _ _ hmdy heay (by omega)
  have hairz : divToU32 ez mdz = ez / mdz := divToU32_exact _ _ hmdz heaz (by omega)
  have haibx : divToU32 DX mdx = DX / mdx := divToU32_exact _ _ hmdx hdax (by omega)
  have haiby : divToU32 DY mdy = DY / mdy := divToU32_exact _ _ hmdy hday (by omega)
  have haibz : divToU32 DZ mdz = DZ / mdz := divToU32_exact _ _ hmdz hdaz (by omega)
  have hmbsx : divToU32 start.x mdx = start.x / mdx := divToU32_exact _ _ hmdx hsax (by omega)
  have hmbsy : divToU32 start.y mdy = start.y / mdy := divToU32_exact _ _ hmdy hsay (by omega)
  have hmbsz : divToU32 start.z mdz = start.z / mdz := divToU32_exact _ _ hmdz hsaz (by omega)
  -- quotient monotonicity and sums
  have hqx : start.x / mdx + ex / mdx = end_.x / mdx := by
    rw [← Nat.add_div_of_dvd_right hsax]
    congr 1
    omega
  have hqy : start.y / mdy + ey / mdy = end_.y / mdy := by
    rw [← Nat.add_div_of_dvd_right hsay]
    congr 1
    omega
  have hqz : start.z / mdz + ez / mdz = end_.z / mdz := by
    rw [← Nat.add_div_of_dvd_right hsaz]
    congr 1
    omega
  have hqxD : end_.x / mdx ≤ DX / mdx := Nat.div_le_div_right hedx
  have hqyD : end_.y / mdy ≤ DY / mdy := Nat.div_le_div_right hedy
  have hqzD : end_.z / mdz ≤ DZ / mdz := Nat.div_le_div_right hedz
  have hExLe : ex / mdx ≤ DX / mdx := le_trans (by omega) hqxD
  have hEyLe : ey / mdy ≤ DY / mdy := le_trans (by omega) hqyD
  have hEzLe : ez / mdz ≤ DZ / mdz := le_trans (by omega) hqzD
  have hprodmono : ms * (ex / mdx * (ey / mdy) * (ez / mdz)) ≤
      ms * (DX / mdx * (DY / mdy) * (DZ / mdz)) :=
    Nat.mul_le_mul_left ms (Nat.mul_le_mul (Nat.mul_le_mul hExLe hEyLe) hEzLe)
  have hboundE : ms * (ex / mdx * (ey / mdy) * (ez / mdz)) < M32 := by omega
  have hPaib : DX / mdx * (DY / mdy) * (DZ / mdz) < M32 := by
    have h1 : DX / mdx * (DY / mdy) * (DZ / mdz) ≤
        ms * (DX / mdx * (DY / mdy) * (DZ / mdz)) := Nat.le_mul_of_pos_left _ hms
    omega
  have hPair : ex / mdx * (ey / mdy) * (ez / mdz) < M32 := by
    have h1 : ex / mdx * (ey / mdy) * (ez / mdz) ≤
        ms * (ex / mdx * (ey / mdy) * (ez / mdz)) := Nat.le_mul_of_pos_left _ hms
    omega
  have hcs : fmt.countSpace ⟨ex, ey, ez⟩ = ms * (ex / mdx * (ey / mdy) * (ez / mdz)) :=
    countSpace_exact fmt ⟨ex, ey, ez⟩ ⟨hmdx, hmdy, hmdz⟩ ⟨heax, heay, heaz⟩
      ⟨by show ex < M24; omega, by show ey < M24; omega, by show ez < M24; omega⟩ hboundE
  -- the destination buffer
  refine ⟨(tripleRange (divToU32 ex mdx) (divToU32 ey mdy) (divToU32 ez mdz)).foldl
    (fun d l => copyMicroblock src
      (Vector3.linearIndex (l.addW (Vector3.divToU32v start fmt.microblockDimensions))
        (Vector3.divToU32v blk.dimensions fmt.microblockDimensions))
      (Vector3.linearIndex l (Vector3.divToU32v ⟨ex, ey, ez⟩ fmt.microblockDimensions)) ms d)
    (List.replicate (fmt.countSpace ⟨ex, ey, ez⟩) 0), ?_, ?_, ?_⟩
  · -- the call returns exactly this block
    rw [Block.getDataInRange]
    simp only [hdata, hsub]
    rw [if_neg (by rw [isAnyLt_zero_false]; exact Bool.false_ne_true),
        if_neg (by rw [isAnyLt_zero_false]; exact Bool.false_ne_true),
        if_neg (by rw [isAnyGt_false_of_le3 end_ blk.dimensions ⟨hedx, hedy, hedz⟩]
                   exact Bool.false_ne_true),
        if_neg (by rw [isAnyDiv_false_of_dvd3 start _ ⟨hsax, hsay, hsaz⟩]
                   exact Bool.false_ne_true),
        if_neg (by rw [isAnyDiv_false_of_dvd3 _ _ ⟨heax, heay, heaz⟩]
                   exact Bool.false_ne_true)]
    rfl
  · -- length
    rw [scatterFold_length, List.length_replicate, hcs]
  · -- the microblock copy law
    intro lx ly lz i hlx hly hlz hi
    have hmem : (⟨lx, ly, lz⟩ : Vector3) ∈
        tripleRange (divToU32 ex mdx) (divToU32 ey mdy) (divToU32 ez mdz) := by
      rw [mem_tripleRange, hairx, hairy, hairz]
      exact ⟨hlx, hly, hlz⟩
    have hairv : Vector3.divToU32v ⟨ex, ey, ez⟩ fmt.microblockDimensions =
        ⟨ex / mdx, ey / mdy, ez / mdz⟩ := by
      rw [Vector3.divToU32v, Vector3.mk.injEq]
      exact ⟨hairx, hairy, hairz⟩
    have haibv : Vector3.divToU32v blk.dimensions fmt.microblockDimensions =
        ⟨DX / mdx, DY / mdy, DZ / mdz⟩ := by
      rw [Vector3.divToU32v, Vector3.mk.injEq]
      exact ⟨haibx, haiby, haibz⟩
    have hmbsv : Vector3.divToU32v start fmt.microblockDimensions =
        ⟨start.x / mdx, start.y / mdy, start.z / mdz⟩ := by
      rw [Vector3.divToU32v, Vector3.mk.injEq]
      exact ⟨hmbsx, hmbsy, hmbsz⟩
    have hM2432b : (M24 : ℕ) + M24 < M32 := by norm_num [M24, M32]
    have hsxlt : start.x / mdx < M24 := lt_of_le_of_lt (Nat.div_le_self _ _) (by omega)
    have hsylt : start.y / mdy < M24 := lt_of_le_of_lt (Nat.div_le_self _ _) (by omega)
    have hszlt : start.z / mdz < M24 := lt_of_le_of_lt (Nat.div_le_self _ _) (by omega)
    have hlxlt : lx < M24 := by
      have : ex / mdx ≤ ex := Nat.div_le_self _ _
      omega
    have hlylt : ly < M24 := by
      have : ey / mdy ≤ ey := Nat.div_le_self _ _
      omega
    have hlzlt : lz < M24 := by
      have : ez / mdz ≤ ez := Nat.div_le_self _ _
      omega
    have haddw : (⟨lx, ly, lz⟩ : Vector3).addW ⟨start.x / mdx, start.y / mdy, start.z / mdz⟩ =
        ⟨lx + start.x / mdx, ly + start.y / mdy, lz + start.z / mdz⟩ :=
      addW_eq _ _ (by show lx + start.x / mdx < M32; omega)
        (by show ly + start.y / mdy < M32; omega)
        (by show lz + start.z / mdz < M32; omega)
    -- global coordinates are inside the block box
    have hgx : lx + start.x / mdx < DX / mdx := by omega
    have hgy : ly + start.y / mdy < DY / mdy := by omega
    have hgz : lz + start.z / mdz < DZ / mdz := by omega
    have hdm : Vector3.linearIndex ⟨lx, ly, lz⟩ ⟨ex / mdx, ey / mdy, ez / mdz⟩ =
        lx + ly * (ex / mdx) + lz * (ex / mdx) * (ey / mdy) :=
      linearIndex_eq _ _ hlx hly hlz hPair
    have hsmi : Vector3.linearIndex ⟨lx + start.x / mdx, ly + start.y / mdy, lz + start.z / mdz⟩
        ⟨DX / mdx, DY / mdy, DZ / mdz⟩ =
        (lx + start.x / mdx) + (ly + start.y / mdy) * (DX / mdx) +
          (lz + start.z / mdz) * (DX / mdx) * (DY / mdy) :=
      linearIndex_eq _ _ hgx hgy hgz hPaib
    have hplainlt : lx + ly * (ex / mdx) + lz * (ex / mdx) * (ey / mdy) <
        ex / mdx * (ey / mdy) * (ez / mdz) := linear_plain_lt _ _ _ _ _ _ hlx hly hlz
    have hwlt : i + (lx + ly * (ex / mdx) + lz * (ex / mdx) * (ey / mdy)) * ms <
        ms * (ex / mdx * (ey / mdy) * (ez / mdz)) := by
      have e1 : (lx + ly * (ex / mdx) + lz * (ex / mdx) * (ey / mdy) + 1) * ms ≤
          (ex / mdx * (ey / mdy) * (ez / mdz)) * ms :=
        Nat.mul_le_mul_right ms (by omega)
      have e2 : (lx + ly * (ex / mdx) + lz * (ex / mdx) * (ey / mdy) + 1) * ms =
          (lx + ly * (ex / mdx) + lz * (ex / mdx) * (ey / mdy)) * ms + ms := by ring
      have e3 : (ex / mdx * (ey / mdy) * (ez / mdz)) * ms =
          ms * (ex / mdx * (ey / mdy) * (ez / mdz)) := by ring
      omega
    have key := scatterFold_write src
      (fun l => Vector3.linearIndex (l.addW (Vector3.divToU32v start fmt.microblockDimensions))
        (Vector3.divToU32v blk.dimensions fmt.microblockDimensions))
      (fun l => Vector3.linearIndex l (Vector3.divToU32v ⟨ex, ey, ez⟩ fmt.microblockDimensions))
      ms (tripleRange (divToU32 ex mdx) (divToU32 ey mdy) (divToU32 ez mdz))
      (List.replicate (fmt.countSpace ⟨ex, ey, ez⟩) 0) ⟨lx, ly, lz⟩ i hmem
      (tripleRange_nodup _ _ _)
      (by
        intro l2 hl2 heq
        rw [mem_tripleRange, hairx, hairy, hairz] at hl2
        simp only [hairv] at heq
        exact linearIndex_inj l2 ⟨lx, ly, lz⟩ ⟨ex / mdx, ey / mdy, ez / mdz⟩
          hl2.1 hl2.2.1 hl2.2.2 hlx hly hlz hPair heq)
      hi
      (by
        simp only [hairv, hdm, List.length_replicate, hcs]
        exact hwlt)
    simp only [hairv, haibv, hmbsv, haddw, hdm, hsmi] at key
    have hidx1 : (lx + ly * (ex / mdx) + lz * (ex / mdx) * (ey / mdy)) * ms + i =
        i + (lx + ly * (ex / mdx) + lz * (ex / mdx) * (ey / mdy)) * ms := by omega
    have hidx2 : ((lx + start.x / mdx) + (ly + start.y / mdy) * (DX / mdx) +
        (lz + start.z / mdz) * (DX / mdx) * (DY / mdy)) * ms + i =
        i + ((lx + start.x / mdx) + (ly + start.y / mdy) * (DX / mdx) +
          (lz + start.z / mdz) * (DX / mdx) * (DY / mdy)) * ms := by omega
    rw [hidx1, hidx2]
    simp only [hairv, haibv, hmbsv]
    exact key

/-- C7 amended: under copy_in's preconditions (data present on both blocks, equal
formats, aligned in-bounds rectangle, decompression of the source succeeding),
`set_data_in_range` returns `Ok` with only `data` replaced, the buffer keeps
its length, and every byte whose microblock lies outside the target rectangle
`[offset, offset + source.dimensions)` is unchanged.  Microblock membership of
byte `j` is read off the digits of `j / ms` in base `(dims/md)`.  Stated in
the exact regime (dimensions below `2^24`, microblock count below `2^32`). -/
theorem C7_copy_in_frame (self : Block) (offset : Vector3) (block : Block) (fmt : Format)
    (destOld srcData srcBytes : List ℕ)
    (hdest : self.data = some destOld)
    (hsrc : block.data = some srcData)
    (hfmt : self.format = block.format)
    (hdec : (match block.encoding with
             | Option.none => some srcData
             | some enc => enc.decompress srcData (fmt.countSpace block.dimensions)) =
            some srcBytes)
    (hmd : Vector3.pos3 fmt.microblockDimensions)
    (hms : 0 < fmt.microblockSize)
    (hoa : Vector3.dvd3 fmt.microblockDimensions offset)
    (hba : Vector3.dvd3 fmt.microblockDimensions block.dimensions)
    (hda : Vector3.dvd3 fmt.microblockDimensions self.dimensions)
    (hin : Vector3.le3 ⟨offset.x + block.dimensions.x, offset.y + block.dimensions.y,
      offset.z + block.dimensions.z⟩ self.dimensions)
    (hsm : Vector3.small24 self.dimensions)
    (hP : self.dimensions.x / fmt.microblockDimensions.x *
      (self.dimensions.y / fmt.microblockDimensions.y) *
      (self.dimensions.z / fmt.microblockDimensions.z) < M32) :
    ∃ destNew : List ℕ,
      self.setDataInRange offset block fmt = some (.ok { self with data := some destNew }) ∧
      destNew.length = destOld.length ∧
      (∀ j : ℕ,
        ¬ (offset.x / fmt.microblockDimensions.x ≤ j / fmt.microblockSize %
              (self.dimensions.x / fmt.microblockDimensions.x) ∧
           j / fmt.microblockSize % (self.dimensions.x / fmt.microblockDimensions.x) <
              offset.x / fmt.microblockDimensions.x +
                block.dimensions.x / fmt.microblockDimensions.x ∧
           offset.y / fmt.microblockDimensions.y ≤ j / fmt.microblockSize /
              (self.dimensions.x / fmt.microblockDimensions.x) %
              (self.dimensions.y / fmt.microblockDimensions.y) ∧
           j / fmt.microblockSize / (self.dimensions.x / fmt.microblockDimensions.x) %
              (self.dimensions.y / fmt.microblockDimensions.y) <
              offset.y / fmt.microblockDimensions.y +
                block.dimensions.y / fmt.microblockDimensions.y ∧
           offset.z / fmt.microblockDimensions.z ≤ j / fmt.microblockSize /
              (self.dimensions.x / fmt.microblockDimensions.x *
               (self.dimensions.y / fmt.microblockDimensions.y)) ∧
           j / fmt.microblockSize / (self.dimensions.x / fmt.microblockDimensions.x *
              (self.dimensions.y / fmt.microblockDimensions.y)) <
              offset.z / fmt.microblockDimensions.z +
                block.dimensions.z / fmt.microblockDimensions.z) →
        destNew.getD j 0 = destOld.getD j 0) := by
  obtain ⟨hmdx, hmdy, hmdz⟩ := hmd
  obtain ⟨hoax, hoay, hoaz⟩ := hoa
  obtain ⟨hbax, hbay, hbaz⟩ := hba
  obtain ⟨hdax, hday, hdaz⟩ := hda
  have hinx : offset.x + block.dimensions.x ≤ self.dimensions.x := hin.1
  have hiny : offset.y + block.dimensions.y ≤ self.dimensions.y := hin.2.1
  have hinz : offset.z + block.dimensions.z ≤ self.dimensions.z := hin.2.2
  obtain ⟨hsmx, hsmy, hsmz⟩ := hsm
  have hM2432 : M24 < M32 := by norm_num [M24, M32]
  set mdx := fmt.microblockDimensions.x with hmdxdef
  set mdy := fmt.microblockDimensions.y with hmdydef
  set mdz := fmt.microblockDimensions.z with hmdzdef
  set ms := fmt.microblockSize with hmsdef
  set DX := self.dimensions.x with hDXdef
  set DY := self.dimensions.y with hDYdef
  set DZ := self.dimensions.z with hDZdef
  set BX := block.dimensions.x with hBXdef
  set BY := block.dimensions.y with hBYdef
  set BZ := block.dimensions.z with hBZdef
  -- end and extent
  have hend : offset.addW block.dimensions =
      ⟨offset.x + BX, offset.y + BY, offset.z + BZ⟩ :=
    addW_eq _ _ (by omega) (by omega) (by omega)
  have hsubv : (⟨offset.x + BX, offset.y + BY, offset.z + BZ⟩ : Vector3).subW offset =
      ⟨offset.x + BX - offset.x, offset.y + BY - offset.y, offset.z + BZ - offset.z⟩ :=
    subW_eq _ _
      ⟨by show offset.x ≤ offset.x + BX; omega,
       by show offset.y ≤ offset.y + BY; omega,
       by show offset.z ≤ offset.z + BZ; omega⟩
      ⟨by show offset.x + BX < M32; omega,
       by show offset.y + BY < M32; omega,
       by show offset.z + BZ < M32; omega⟩
  have hext : (⟨offset.x + BX, offset.y + BY, offset.z + BZ⟩ : Vector3).subW offset =
      ⟨BX, BY, BZ⟩ := by
    rw [hsubv, Vector3.mk.injEq]
    refine ⟨by omega, by omega, by omega⟩
  -- exact quotients
  have hairx : divToU32 BX mdx = BX / mdx := divToU32_exact _ _ hmdx hbax (by omega)
  have hairy : divToU32 BY mdy = BY / mdy := divToU32_exact _ _ hmdy hbay (by omega)
  have hairz : divToU32 BZ mdz = BZ / mdz := divToU32_exact _ _ hmdz hbaz (by omega)
  have haibx : divToU32 DX mdx = DX / mdx := divToU32_exact _ _ hmdx hdax (by omega)
  have haiby : divToU32 DY mdy = DY / mdy := divToU32_exact _ _ hmdy hday (by omega)
  have haibz : divToU32 DZ mdz = DZ / mdz := divToU32_exact _ _ hmdz hdaz (by omega)
  have hmbsx : divToU32 offset.x mdx = offset.x / mdx := divToU32_exact _ _ hmdx hoax (by omega)
  have hmbsy : divToU32 offset.y mdy = offset.y / mdy := divToU32_exact _ _ hmdy hoay (by omega)
  have hmbsz : divToU32 offset.z mdz = offset.z / mdz := divToU32_exact _ _ hmdz hoaz (by omega)
  have hairv : Vector3.divToU32v ⟨BX, BY, BZ⟩ fmt.microblockDimensions =
      ⟨BX / mdx, BY / mdy, BZ / mdz⟩ := by
    rw [Vector3.divToU32v, Vector3.mk.injEq]
    exact ⟨hairx, hairy, hairz⟩
  have haibv : Vector3.divToU32v self.dimensions fmt.microblockDimensions =
      ⟨DX / mdx, DY / mdy, DZ / mdz⟩ := by
    rw [Vector3.divToU32v, Vector3.mk.injEq]
    exact ⟨haibx, haiby, haibz⟩
  have hmbsv : Vector3.divToU32v offset fmt.microblockDimensions =
      ⟨offset.x / mdx, offset.y / mdy, offset.z / mdz⟩ := by
    rw [Vector3.divToU32v, Vector3.mk.injEq]
    exact ⟨hmbsx, hmbsy, hmbsz⟩
  -- quotient sums stay in bounds
  have hqx : offset.x / mdx + BX / mdx = (offset.x + BX) / mdx := by
    rw [Nat.add_div_of_dvd_right hoax]
  have hqy : offset.y / mdy + BY / mdy = (offset.y + BY) / mdy := by
    rw [Nat.add_div_of_dvd_right hoay]
  have hqz : offset.z / mdz + BZ / mdz = (offset.z + BZ) / mdz := by
    rw [Nat.add_div_of_dvd_right hoaz]
  have hqxD : (offset.x + BX) / mdx ≤ DX / mdx := Nat.div_le_div_right hinx
  have hqyD : (offset.y + BY) / mdy ≤ DY / mdy := Nat.div_le_div_right hiny
  have hqzD : (offset.z + BZ) / mdz ≤ DZ / mdz := Nat.div_le_div_right hinz
  refine ⟨(tripleRange (divToU32 BX mdx) (divToU32 BY mdy) (divToU32 BZ mdz)).foldl
    (fun d l => copyMicroblock srcBytes
      (Vector3.linearIndex l (Vector3.divToU32v ⟨BX, BY, BZ⟩ fmt.microblockDimensions))
      (Vector3.linearIndex (l.addW (Vector3.divToU32v offset fmt.microblockDimensions))
        (Vector3.divToU32v self.dimensions fmt.microblockDimensions)) ms d)
    destOld, ?_, ?_, ?_⟩
  · rw [Block.setDataInRange]
    simp only [hdest, hsrc, hend, hext]
    rw [if_neg (by rw [hfmt]; exact fun h => h rfl),
        if_neg (by rw [isAnyLt_zero_false]; exact Bool.false_ne_true),
        if_neg (by rw [isAnyLt_zero_false]; exact Bool.false_ne_true),
        if_neg (by rw [isAnyGt_false_of_le3 _ self.dimensions ⟨hinx, hiny, hinz⟩]
                   exact Bool.false_ne_true),
        if_neg (by rw [isAnyDiv_false_of_dvd3 offset _ ⟨hoax, hoay, hoaz⟩]
                   exact Bool.false_ne_true),
        if_neg (by rw [isAnyDiv_false_of_dvd3 _ _ ⟨hbax, hbay, hbaz⟩]
                   exact Bool.false_ne_true)]
    rw [hdec]
    rfl
  · rw [scatterFold_length]
  · intro j houtside
    apply scatterFold_frame
    intro l hl hwrite
    rw [mem_tripleRange, hairx, hairy, hairz] at hl
    obtain ⟨hlx, hly, hlz⟩ := hl
    have hsxlt : offset.x / mdx < M24 := lt_of_le_of_lt (Nat.div_le_self _ _) (by omega)
    have hsylt : offset.y / mdy < M24 := lt_of_le_of_lt (Nat.div_le_self _ _) (by omega)
    have hszlt : offset.z / mdz < M24 := lt_of_le_of_lt (Nat.div_le_self _ _) (by omega)
    have hlxlt : l.x < M24 := by
      have h1 : BX / mdx ≤ BX := Nat.div_le_self _ _
      omega
    have hlylt : l.y < M24 := by
      have h1 : BY / mdy ≤ BY := Nat.div_le_self _ _
      omega
    have hlzlt : l.z < M24 := by
      have h1 : BZ / mdz ≤ BZ := Nat.div_le_self _ _
      omega
    have hM2432b : (M24 : ℕ) + M24 < M32 := by norm_num [M24, M32]
    have haddw : l.addW ⟨offset.x / mdx, offset.y / mdy, offset.z / mdz⟩ =
        ⟨l.x + offset.x / mdx, l.y + offset.y / mdy, l.z + offset.z / mdz⟩ :=
      addW_eq _ _ (by show l.x + offset.x / mdx < M32; omega)
        (by show l.y + offset.y / mdy < M32; omega)
        (by show l.z + offset.z / mdz < M32; omega)
    have hgx : l.x + offset.x / mdx < DX / mdx := by omega
    have hgy : l.y + offset.y / mdy < DY / mdy := by omega
    have hgz : l.z + offset.z / mdz < DZ / mdz := by omega
    have hdm : Vector3.linearIndex
        ⟨l.x + offset.x / mdx, l.y + offset.y / mdy, l.z + offset.z / mdz⟩
        ⟨DX / mdx, DY / mdy, DZ / mdz⟩ =
        (l.x + offset.x / mdx) + (l.y + offset.y / mdy) * (DX / mdx) +
          (l.z + offset.z / mdz) * (DX / mdx) * (DY / mdy) :=
      linearIndex_eq _ _ hgx hgy hgz hP
    obtain ⟨hd1, hd2, hd3⟩ := linearIndex_decomp
      ⟨l.x + offset.x / mdx, l.y + offset.y / mdy, l.z + offset.z / mdz⟩
      ⟨DX / mdx, DY / mdy, DZ / mdz⟩ hgx hgy hgz hP
    simp only [hmbsv, haibv, haddw] at hwrite
    -- j sits inside this microblock: recover its coordinates
    obtain ⟨hw1, hw2⟩ := hwrite
    set L := Vector3.linearIndex
      ⟨l.x + offset.x / mdx, l.y + offset.y / mdy, l.z + offset.z / mdz⟩
      ⟨DX / mdx, DY / mdy, DZ / mdz⟩ with hLdef
    have hjms : j / ms = L := by
      obtain ⟨k, hk⟩ := Nat.le.dest hw1
      have hkms : k < ms := by omega
      rw [← hk, Nat.add_comm, Nat.add_mul_div_right _ _ hms, Nat.div_eq_of_lt hkms]
      omega
    apply houtside
    rw [hjms]
    simp only [hLdef, hd1, hd2, hd3]
    refine ⟨by omega, by omega, by omega, by omega, by omega, by omega⟩

/-- Witness for C3 at a concrete 4×4×4 mono-u8 block: copy out the range
`[(2,0,0), (4,2,2))`. -/
theorem C3_copy_out_law_witness :
    ∃ dest : List ℕ,
      (Block.new 0 ⟨4, 4, 4⟩ (some 0) (some (List.range 64))).getDataInRange
          ⟨2, 0, 0⟩ ⟨4, 2, 2⟩ monoU8 = .ok
        { index := 0, dimensions := ⟨2, 2, 2⟩, placements := []
          format := some 0, data := some dest
          dataUrl := Option.none, encoding := Option.none } ∧
      dest.length = 8 ∧
      (∀ lx ly lz i, lx < 2 → ly < 2 → lz < 2 → i < 1 →
        dest.getD ((lx + ly * 2 + lz * 2 * 2) * 1 + i) 0 =
        (List.range 64).getD
          (((lx + 2) + (ly + 0) * 4 + (lz + 0) * 4 * 4) * 1 + i) 0) :=
  C3_copy_out_law (Block.new 0 ⟨4, 4, 4⟩ (some 0) (some (List.range 64)))
    ⟨2, 0, 0⟩ ⟨4, 2, 2⟩ monoU8 (List.range 64) rfl (by decide) (by decide)
    (by decide) (by decide) (by decide) (by decide) (by decide) (by decide)
    (by decide)

/-- Witness for C7 at a concrete 4×4×4 mono-u8 block: copy a 2×2×2 source
block in at offset `(2,0,0)` and check the frame property. -/
theorem C7_copy_in_frame_witness :
    ∃ destNew : List ℕ,
      (Block.new 0 ⟨4, 4, 4⟩ (some 0) (some (List.replicate 64 7))).setDataInRange
          ⟨2, 0, 0⟩ (Block.new 0 ⟨2, 2, 2⟩ (some 0) (some (List.replicate 8 9)))
          monoU8 = some (.ok
        { index := 0, dimensions := ⟨4, 4, 4⟩, placements := []
          format := some 0, data := some destNew
          dataUrl := Option.none, encoding := Option.none }) ∧
      destNew.length = 64 ∧
      (∀ j : ℕ,
        ¬ (2 ≤ j / 1 % 4 ∧ j / 1 % 4 < 4 ∧
           0 ≤ j / 1 / 4 % 4 ∧ j / 1 / 4 % 4 < 2 ∧
           0 ≤ j / 1 / 16 ∧ j / 1 / 16 < 2) →
        destNew.getD j 0 = (List.replicate 64 7).getD j 0) :=
  C7_copy_in_frame (Block.new 0 ⟨4, 4, 4⟩ (some 0) (some (List.replicate 64 7)))
    ⟨2, 0, 0⟩ (Block.new 0 ⟨2, 2, 2⟩ (some 0) (some (List.replicate 8 9))) monoU8
    (List.replicate 64 7) (List.replicate 8 9) (List.replicate 8 9)
    rfl rfl rfl rfl (by decide) (by decide) (by decide) (by decide) (by decide)
    (by decide) (by decide) (by decide)


theorem satU32_small (n : ℕ) (h : n < M32) : satU32 n = n := by
  rw [satU32]
  simp only [M32] at h ⊢
  omega

/-- The member loop of `from_saf_archive` on the manifest `to_saf_archive`
wrote, started at the end of any prefix: every file is sliced back out, with
a missing mime replaced by `some ""`. -/
theorem safReadFiles_roundtrip (files : List File) (pre : List ℕ)
    (hs : ∀ f ∈ files, f.data.length < M32) :
    safReadFiles (pre ++ files.flatMap (fun f => f.data))
      (files.map fun f => Json.obj ([("path", Json.str f.name)]
        ++ (match f.mime with
            | some m => [("mime", Json.str m)]
            | Option.none => [])
        ++ [("size", Json.num f.data.length)])) pre.length =
    some (.ok (files.map fun f => File.new f.name f.data (some (f.mime.getD "")))) := by
  induction files generalizing pre with
  | nil => simp [safReadFiles]
  | cons f rest ih =>
    obtain ⟨name, data, mime⟩ := f
    have hdl : data.length < M32 := hs _ (List.mem_cons_self _ _)
    have hs' : ∀ g ∈ rest, g.data.length < M32 := fun g hg => hs g (List.mem_cons_of_mem _ hg)
    have hsat : satU32 data.length = data.length := satU32_small _ hdl
    cases mime with
    | none =>
      show (if (pre ++ (data ++ rest.flatMap (fun f => f.data))).length <
              pre.length + satU32 data.length then Option.none
            else
              match safReadFiles (pre ++ (data ++ rest.flatMap (fun f => f.data)))
                  (rest.map fun f => Json.obj ([("path", Json.str f.name)]
                    ++ (match f.mime with
                        | some m => [("mime", Json.str m)]
                        | Option.none => [])
                    ++ [("size", Json.num f.data.length)]))
                  (pre.length + satU32 data.length) with
              | Option.none => Option.none
              | some (Except.error e) => some (Except.error e)
              | some (Except.ok fs) =>
                some (Except.ok (File.new name
                  (((pre ++ (data ++ rest.flatMap (fun f => f.data))).drop pre.length).take
                    (satU32 data.length)) (some "") :: fs))) =
          some (Except.ok (File.new name data (some "") ::
            rest.map fun f => File.new f.name f.data (some (f.mime.getD ""))))
      rw [hsat, List.drop_left, List.take_left]
      rw [if_neg (by simp [List.length_append])]
      rw [show pre ++ (data ++ rest.flatMap (fun f => f.data)) =
            (pre ++ data) ++ rest.flatMap (fun f => f.data) from
          (List.append_assoc _ _ _).symm,
        show pre.length + data.length = (pre ++ data).length from
          (List.length_append _ _).symm,
        ih (pre ++ data) hs']
    | some m =>
      show (if (pre ++ (data ++ rest.flatMap (fun f => f.data))).length <
              pre.length + satU32 data.length then Option.none
            else
              match safReadFiles (pre ++ (data ++ rest.flatMap (fun f => f.data)))
                  (rest.map fun f => Json.obj ([("path", Json.str f.name)]
                    ++ (match f.mime with
                        | some m => [("mime", Json.str m)]
                        | Option.none => [])
                    ++ [("size", Json.num f.data.length)]))
                  (pre.length + satU32 data.length) with
              | Option.none => Option.none
              | some (Except.error e) => some (Except.error e)
              | some (Except.ok fs) =>
                some (Except.ok (File.new name
                  (((pre ++ (data ++ rest.flatMap (fun f => f.data))).drop pre.length).take
                    (satU32 data.length)) (some m) :: fs))) =
          some (Except.ok (File.new name data (some m) ::
            rest.map fun f => File.new f.name f.data (some (f.mime.getD ""))))
      rw [hsat, List.drop_left, List.take_left]
      rw [if_neg (by simp [List.length_append])]
      rw [show pre ++ (data ++ rest.flatMap (fun f => f.data)) =
            (pre ++ data) ++ rest.flatMap (fun f => f.data) from
          (List.append_assoc _ _ _).symm,
        show pre.length + data.length = (pre ++ data).length from
          (List.length_append _ _).symm,
        ih (pre ++ data) hs']

/-- C5 amended: writing a SAF archive and reading it back returns the files
in order with names and payloads intact, but a missing mime comes back as
`some ""` rather than `None`; exact round trip holds only up to that mime
normalisation.  The JSON codec is a parameter (tinyjson is an external
crate): the hypotheses say the manifest survives stringify-then-parse, the
manifest text length fits `u32`, and each payload length fits `u32`. -/
theorem C5_saf_roundtrip_amended
    (stringify : Json → Option (List ℕ)) (parse : List ℕ → Option Json)
    (files : List File) (mbytes : List ℕ)
    (hstr : stringify (safManifestJson files) = some mbytes)
    (hparse : parse mbytes = some (safManifestJson files))
    (hmlen : mbytes.length < M32)
    (hsizes : ∀ f ∈ files, f.data.length < M32) :
    to_saf_archive stringify files = Except.ok
      (safIdentifier ++ u32leBytes mbytes.length ++ mbytes ++
        files.flatMap (fun f => f.data)) ∧
    from_saf_archive parse
      (safIdentifier ++ u32leBytes mbytes.length ++ mbytes ++
        files.flatMap (fun f => f.data)) =
      some (Except.ok (files.map fun f =>
        File.new f.name f.data (some (f.mime.getD "")))) := by
  constructor
  · simp only [to_saf_archive, hstr]
  · have hlen : (safIdentifier ++ u32leBytes mbytes.length ++ mbytes ++
        files.flatMap (fun f => f.data)).length =
        16 + mbytes.length + (files.flatMap (fun f => f.data)).length := by
      simp [safIdentifier, u32leBytes]
      omega
    have htake : (safIdentifier ++ u32leBytes mbytes.length ++ mbytes ++
        files.flatMap (fun f => f.data)).take 12 = safIdentifier := rfl
    have hmsize : (safIdentifier ++ u32leBytes mbytes.length ++ mbytes ++
          files.flatMap (fun f => f.data)).getD 12 0 +
        (safIdentifier ++ u32leBytes mbytes.length ++ mbytes ++
          files.flatMap (fun f => f.data)).getD 13 0 * 256 +
        (safIdentifier ++ u32leBytes mbytes.length ++ mbytes ++
          files.flatMap (fun f => f.data)).getD 14 0 * 65536 +
        (safIdentifier ++ u32leBytes mbytes.length ++ mbytes ++
          files.flatMap (fun f => f.data)).getD 15 0 * 16777216 = mbytes.length := by
      show mbytes.length % M32 % 256 + mbytes.length % M32 / 256 % 256 * 256 +
        mbytes.length % M32 / 65536 % 256 * 65536 +
        mbytes.length % M32 / 16777216 % 256 * 16777216 = mbytes.length
      simp only [M32] at hmlen ⊢
      omega
    simp only [from_saf_archive]
    rw [if_neg (by omega), if_neg (fun h => h htake), if_neg (by omega), hmsize,
      if_neg (by omega)]
    have hdrop : ((safIdentifier ++ u32leBytes mbytes.length ++ mbytes ++
        files.flatMap (fun f => f.data)).drop 16).take mbytes.length = mbytes := by
      rw [show (safIdentifier ++ u32leBytes mbytes.length ++ mbytes ++
          files.flatMap (fun f => f.data)).drop 16 =
        mbytes ++ files.flatMap (fun f => f.data) from rfl, List.take_left]
    rw [hdrop, hparse]
    show safReadFiles (safIdentifier ++ u32leBytes mbytes.length ++ mbytes ++
        files.flatMap (fun f => f.data))
      (files.map fun f => Json.obj ([("path", Json.str f.name)]
        ++ (match f.mime with
            | some m => [("mime", Json.str m)]
            | Option.none => [])
        ++ [("size", Json.num f.data.length)])) (16 + mbytes.length) =
      some (Except.ok (files.map fun f =>
        File.new f.name f.data (some (f.mime.getD ""))))
    have hpre : 16 + mbytes.length =
        (safIdentifier ++ u32leBytes mbytes.length ++ mbytes).length := by
      simp [safIdentifier, u32leBytes]
      omega
    rw [hpre]
    exact safReadFiles_roundtrip files _ hsizes

/-- Two concrete files for the SAF round-trip witness, one with a mime type
and one without. -/
def safDemoFiles : List File :=
  [File.new "a" [104] (some "t"), File.new "b" [1, 2] Option.none]

/-- Their manifest, stringified by the concrete codec. -/
def safDemoManifest : List ℕ :=
  (stringifyAux 32 (safManifestJson safDemoFiles)).map Char.toNat

/-- C5 counterexample: a file stored without a mime type comes back with
`mime = some ""`, so the round trip is not the identity. -/
theorem C5_saf_roundtrip_counterexample :
    (match to_saf_archive jsonStringifyBytes [File.new "a" [] Option.none] with
     | Except.ok saf => from_saf_archive jsonParseBytes saf
     | Except.error _ => Option.none) =
      some (Except.ok [File.new "a" [] (some "")]) ∧
    File.new "a" [] (some "") ≠ File.new "a" [] Option.none :=
  ⟨rfl, by decide⟩

/-- Witness for C5 with the concrete JSON codec: write two files (one mime
missing), read them back, observe order, names and payloads preserved and
the missing mime normalised to `some ""`. -/
theorem C5_saf_roundtrip_amended_witness :
    to_saf_archive jsonStringifyBytes safDemoFiles = Except.ok
      (safIdentifier ++ u32leBytes safDemoManifest.length ++ safDemoManifest ++
        safDemoFiles.flatMap (fun f => f.data)) ∧
    from_saf_archive jsonParseBytes
      (safIdentifier ++ u32leBytes safDemoManifest.length ++ safDemoManifest ++
        safDemoFiles.flatMap (fun f => f.data)) =
      some (Except.ok (safDemoFiles.map fun f =>
        File.new f.name f.data (some (f.mime.getD "")))) :=
  C5_saf_roundtrip_amended jsonStringifyBytes jsonParseBytes safDemoFiles
    safDemoManifest rfl rfl (by decide) (by decide)


theorem getD_lt_256 (src : List ℕ) (hb : ∀ b ∈ src, b < 256) (i : ℕ)
    (hi : i < src.length) : src.getD i 0 < 256 := by
  rw [List.getD_eq_getElem src 0 hi]
  exact hb _ (List.getElem_mem hi)

theorem readU32_inj (src : List ℕ) (hb : ∀ b ∈ src, b < 256) (si mi : ℕ)
    (hsi : si + 4 ≤ src.length) (hmi : mi + 4 ≤ src.length)
    (h : readU32 src mi = readU32 src si) :
    ∀ k, k < 4 → src.getD (mi + k) 0 = src.getD (si + k) 0 := by
  rw [readU32, readU32] at h
  have b0 := getD_lt_256 src hb mi (by omega)
  have b1 := getD_lt_256 src hb (mi+1) (by omega)
  have b2 := getD_lt_256 src hb (mi+2) (by omega)
  have b3 := getD_lt_256 src hb (mi+3) (by omega)
  have c0 := getD_lt_256 src hb si (by omega)
  have c1 := getD_lt_256 src hb (si+1) (by omega)
  have c2 := getD_lt_256 src hb (si+2) (by omega)
  have c3 := getD_lt_256 src hb (si+3) (by omega)
  have h0 : src.getD mi 0 = src.getD si 0 := by omega
  have h1 : src.getD (mi+1) 0 = src.getD (si+1) 0 := by omega
  have h2 : src.getD (mi+2) 0 = src.getD (si+2) 0 := by omega
  have h3 : src.getD (mi+3) 0 = src.getD (si+3) 0 := by omega
  intro k hk
  interval_cases k
  · simpa using h0
  · exact h1
  · exact h2
  · exact h3

theorem commonLen_le (src : List ℕ) : ∀ fuel si mi,
    commonLen src si mi fuel ≤ fuel := by
  intro fuel
  induction fuel with
  | zero => intro si mi; rw [commonLen]
  | succ fuel ih =>
    intro si mi
    rw [commonLen]
    split
    · exact Nat.succ_le_succ (ih _ _)
    · omega

theorem commonLen_spec (src : List ℕ) : ∀ fuel si mi k,
    k < commonLen src si mi fuel → src.getD (si + k) 0 = src.getD (mi + k) 0 := by
  intro fuel
  induction fuel with
  | zero => intro si mi k hk; rw [commonLen] at hk; omega
  | succ fuel ih =>
    intro si mi k hk
    rw [commonLen] at hk
    split at hk
    · cases k with
      | zero => simpa using ‹src.getD si 0 = src.getD mi 0›
      | succ k =>
        have := ih (si+1) (mi+1) k (by omega)
        rw [show si + (k+1) = si + 1 + k by omega, show mi + (k+1) = mi + 1 + k by omega]
        exact this
    · omega

theorem commonLen_ge (src : List ℕ) : ∀ n fuel si mi, n ≤ fuel →
    (∀ k, k < n → src.getD (si + k) 0 = src.getD (mi + k) 0) →
    n ≤ commonLen src si mi fuel := by
  intro n
  induction n with
  | zero => intro fuel si mi _ _; omega
  | succ n ih =>
    intro fuel si mi hn heq
    obtain ⟨f, rfl⟩ : ∃ f, fuel = f + 1 := ⟨fuel - 1, by omega⟩
    rw [commonLen, if_pos (by simpa using heq 0 (by omega))]
    have := ih f (si+1) (mi+1) (by omega) (fun k hk => by
      rw [show si + 1 + k = si + (k+1) by omega, show mi + 1 + k = mi + (k+1) by omega]
      exact heq (k+1) (by omega))
    omega

theorem readRun_replicate (k m : ℕ) (r : List ℕ) (hm : m < 255) :
    readRun (List.replicate k 255 ++ (m :: r)) = some (255 * k + m, r) := by
  induction k with
  | zero =>
    rw [List.replicate_zero, List.nil_append, readRun, if_neg (by omega)]
    norm_num
  | succ k ih =>
    rw [List.replicate_succ, List.cons_append, readRun, if_pos rfl, ih]
    norm_num
    ring

theorem readRun_ext (n : ℕ) (r : List ℕ) :
    readRun (extBytes n ++ r) = some (n, r) := by
  rw [extBytes, List.append_assoc, List.cons_append, List.nil_append,
    readRun_replicate _ _ _ (Nat.mod_lt _ (by omega))]
  congr 1
  ext : 1
  · simp
    omega
  · rfl

theorem take_append_map_range (src : List ℕ) : ∀ lc ls, ls + lc ≤ src.length →
    src.take ls ++ (List.range lc).map (fun k => src.getD (ls + k) 0) =
      src.take (ls + lc) := by
  intro lc
  induction lc with
  | zero => intro ls _; simp
  | succ lc ih =>
    intro ls h
    rw [List.range_succ, List.map_append, ← List.append_assoc, ih ls (by omega)]
    simp only [List.map_cons, List.map_nil]
    rw [show ls + (lc + 1) = (ls + lc) + 1 by omega, List.take_succ]
    congr 1
    rw [List.getD_eq_getElem src 0 (by omega)]
    rw [List.getElem?_eq_getElem (by omega)]
    rfl

theorem matchCopy_take (src : List ℕ) : ∀ ml e mi, e + ml ≤ src.length → mi < e →
    (∀ k, k < ml → src.getD (mi + k) 0 = src.getD (e + k) 0) →
    matchCopy (src.take e) mi ml = some (src.take (e + ml)) := by
  intro ml
  induction ml with
  | zero => intro e mi _ _ _; rw [matchCopy]; rw [Nat.add_zero]
  | succ ml ih =>
    intro e mi hlen hmi heq
    rw [matchCopy]
    have hget : (src.take e)[mi]? = some (src.getD mi 0) := by
      rw [List.getElem?_take_of_lt hmi, List.getElem?_eq_getElem (show mi < src.length by omega),
        List.getD_eq_getElem src 0 (show mi < src.length by omega)]
    rw [hget]
    have h0 : src.getD mi 0 = src.getD e 0 := by
      have := heq 0 (by omega)
      simpa using this
    have hcons : src.take e ++ [src.getD mi 0] = src.take (e+1) := by
      rw [h0, List.take_succ, List.getElem?_eq_getElem (show e < src.length by omega),
        List.getD_eq_getElem src 0 (show e < src.length by omega)]
      rfl
    show matchCopy (src.take e ++ [src.getD mi 0]) (mi + 1) ml =
      some (src.take (e + (ml + 1)))
    rw [hcons, show e + (ml + 1) = (e + 1) + ml by omega]
    exact ih (e+1) (mi+1) (by omega) (by omega) (fun k hk => by
      rw [show mi + 1 + k = mi + (k+1) by omega, show e + 1 + k = e + (k+1) by omega]
      exact heq (k+1) (by omega))

theorem decompressLoopF_step (d : ℕ) (dest literals rest : List ℕ) (lc ml off : ℕ)
    (dest2 : List ℕ)
    (hlits : literals.length = lc)
    (hoff1 : 1 ≤ off) (hoff2 : off < 65536)
    (hofle : off ≤ dest.length + lc)
    (htok : 0 < lc ∨ 0 < ml)
    (hcopy : matchCopy (dest ++ literals) (dest.length + lc - off) ml = some dest2) :
    decompressLoopF (d+1) dest
      ([min lc 15 * 16 + min ml 15]
        ++ (if 15 ≤ lc then extBytes (lc - 15) else [])
        ++ literals ++ [off % 256, off / 256 % 256]
        ++ (if 15 ≤ ml then extBytes (ml - 15) else []) ++ rest) =
    decompressLoopF d dest2 rest := by
  have htok' : ¬(min lc 15 * 16 + min ml 15 = 0) := by omega
  have hshape : ([min lc 15 * 16 + min ml 15]
      ++ (if 15 ≤ lc then extBytes (lc - 15) else [])
      ++ literals ++ [off % 256, off / 256 % 256]
      ++ (if 15 ≤ ml then extBytes (ml - 15) else []) ++ rest)
      = (min lc 15 * 16 + min ml 15) :: ((if 15 ≤ lc then extBytes (lc - 15) else [])
        ++ (literals ++ ([off % 256, off / 256 % 256]
          ++ ((if 15 ≤ ml then extBytes (ml - 15) else []) ++ rest)))) := by
    simp [List.append_assoc]
  rw [hshape]
  simp only [decompressLoopF]
  rw [if_neg htok']
  have hr1 : ¬((literals ++ ([off % 256, off / 256 % 256]
      ++ ((if 15 ≤ ml then extBytes (ml - 15) else []) ++ rest))).length < lc) := by
    simp [hlits]
  have hdrop : (literals ++ ([off % 256, off / 256 % 256]
      ++ ((if 15 ≤ ml then extBytes (ml - 15) else []) ++ rest))).drop lc =
      [off % 256, off / 256 % 256]
        ++ ((if 15 ≤ ml then extBytes (ml - 15) else []) ++ rest) := by
    rw [← hlits, List.drop_left]
  have htake : (literals ++ ([off % 256, off / 256 % 256]
      ++ ((if 15 ≤ ml then extBytes (ml - 15) else []) ++ rest))).take lc = literals := by
    rw [← hlits, List.take_left]
  have hoffv : off % 256 + off / 256 % 256 * 256 = off := by omega
  have hdlen : (dest ++ literals).length = dest.length + lc := by simp [hlits]
  by_cases hlc : 15 ≤ lc
  · have ht16 : (min lc 15 * 16 + min ml 15) / 16 = 15 := by omega
    rw [if_pos ht16, if_pos hlc, readRun_ext]
    simp only []
    rw [show 15 + (lc - 15) = lc by omega]
    rw [if_neg hr1, hdrop, htake]
    simp only [List.cons_append, List.nil_append]
    rw [hoffv, hdlen, if_neg (show ¬(dest.length + lc < off) from by omega)]
    by_cases hml : 15 ≤ ml
    · have hm16 : (min lc 15 * 16 + min ml 15) % 16 = 15 := by omega
      rw [if_pos hm16, if_pos hml, readRun_ext]
      simp only []
      rw [show 15 + (ml - 15) = ml by omega, hcopy]
    · have hm16 : ¬((min lc 15 * 16 + min ml 15) % 16 = 15) := by omega
      have hmlv : (min lc 15 * 16 + min ml 15) % 16 = ml := by omega
      rw [if_neg hm16, if_neg hml]
      simp only []
      rw [hmlv, hcopy]
      rfl
  · have ht16 : ¬((min lc 15 * 16 + min ml 15) / 16 = 15) := by omega
    have hlcv : (min lc 15 * 16 + min ml 15) / 16 = lc := by omega
    rw [if_neg ht16, if_neg hlc]
    simp only []
    rw [hlcv, List.nil_append, if_neg hr1, hdrop, htake]
    simp only [List.cons_append, List.nil_append]
    rw [hoffv, hdlen, if_neg (show ¬(dest.length + lc < off) from by omega)]
    by_cases hml : 15 ≤ ml
    · have hm16 : (min lc 15 * 16 + min ml 15) % 16 = 15 := by omega
      rw [if_pos hm16, if_pos hml, readRun_ext]
      simp only []
      rw [show 15 + (ml - 15) = ml by omega, hcopy]
    · have hm16 : ¬((min lc 15 * 16 + min ml 15) % 16 = 15) := by omega
      have hmlv : (min lc 15 * 16 + min ml 15) % 16 = ml := by omega
      rw [if_neg hm16, if_neg hml]
      simp only []
      rw [hmlv, hcopy]
      rfl

theorem decompressLoopF_end (d : ℕ) (dest : List ℕ) :
    decompressLoopF (d+1) dest [0] = some dest := rfl

/-- Values below `2^31` are unchanged by the `u32`-to-`i32` bit cast. -/
theorem toI32_small (n : ℕ) (h : n < 2 ^ 31) : toI32 n = n := by
  rw [toI32, if_pos (show n % M32 < 2 ^ 31 from by simp only [M32]; omega)]
  simp only [M32]
  omega

/-- `i32` wrapping is the identity inside the `i32` range. -/
theorem i32Wrap_small (z : ℤ) (h1 : -2 ^ 31 ≤ z) (h2 : z < 2 ^ 31) : i32Wrap z = z := by
  rw [i32Wrap]
  omega

theorem compressLoop_decodes (src : List ℕ) (hb : ∀ b ∈ src, b < 256)
    (hlen : src.length < 2 ^ 31) :
    ∀ fuel si ls table, src.length - si < fuel → ls ≤ si → si ≤ src.length →
    (∀ h, table h ≤ si ∧ (0 < table h → table h + 3 < src.length)) →
    ∃ out, compressLoop src fuel table si ls = some out ∧
      ∀ dfuel, out.length < dfuel →
        decompressLoopF dfuel (src.take ls) out = some src := by
  intro fuel
  induction fuel with
  | zero => intro si ls table hf _ _ _; omega
  | succ fuel ih =>
    intro si ls table hf hls hsi htab
    simp only [compressLoop]
    by_cases hlt : si + 4 < src.length
    · rw [if_pos hlt]
      set h16 := (hashU32 (readU32 src si) / 65536 ^^^ hashU32 (readU32 src si)) % 65536
        with hh16
      have hmod : (si + 1) % M32 = si + 1 := Nat.mod_eq_of_lt (by simp only [M32]; omega)
      have htab2 : ∀ h, (if h = h16 then (si + 1) % M32 else table h) ≤ si + 1 ∧
          (0 < (if h = h16 then (si + 1) % M32 else table h) →
            (if h = h16 then (si + 1) % M32 else table h) + 3 < src.length) := by
        intro h
        split
        · rw [hmod]
          exact ⟨le_refl _, fun _ => by omega⟩
        · exact ⟨Nat.le_succ_of_le (htab h).1, fun hp => (htab h).2 hp⟩
      rcases hstored : table h16 with _ | mi
      · rw [if_pos (show i32Wrap (toI32 0 - 1) < 0 by decide)]
        obtain ⟨out, hout, hdec⟩ := ih (si+1) ls
          (fun h => if h = h16 then (si + 1) % M32 else table h)
          (by omega) (by omega) (by omega) htab2
        exact ⟨out, hout, hdec⟩
      · have hmi1 : mi + 1 ≤ si := by
          have h1 := (htab h16).1
          rw [hstored] at h1
          exact h1
        have hmi4 : mi + 4 < src.length := by
          have h2 := (htab h16).2
          rw [hstored] at h2
          have := h2 (by omega)
          omega
        have hmidx : i32Wrap (toI32 (mi + 1) - 1) = (mi : ℤ) := by
          rw [toI32_small (mi + 1) (by omega),
            i32Wrap_small _ (by push_cast; omega) (by push_cast; omega)]
          push_cast
          ring
        rw [hmidx, if_neg (show ¬((mi : ℤ) < 0) by omega), Int.toNat_natCast,
          if_neg (show ¬(src.length < mi + 4) by omega)]
        have hmoff : i32Wrap (toI32 si - (mi : ℤ)) = ((si - mi : ℕ) : ℤ) := by
          rw [toI32_small si (by omega),
            i32Wrap_small _ (by push_cast; omega) (by push_cast; omega)]
          push_cast [Nat.cast_sub (by omega : mi ≤ si)]
          ring
        rw [hmoff]
        by_cases hcond : readU32 src mi = readU32 src si ∧ si - mi < 65536
        · rw [if_pos (show readU32 src mi = readU32 src si ∧
              ((si - mi : ℕ) : ℤ) < 65536 from ⟨hcond.1, by exact_mod_cast hcond.2⟩)]
          have hoffb : ((((si - mi : ℕ) : ℤ)) % 4294967296).toNat = si - mi := by
            rw [Int.emod_eq_of_lt (Int.natCast_nonneg _)
              (by exact_mod_cast (show (si - mi : ℕ) < 4294967296 by omega))]
            exact Int.toNat_natCast _
          rw [hoffb]
          have hmi : mi < si := by omega
          have hmlle : commonLen src si mi (src.length - si) ≤ src.length - si :=
            commonLen_le src _ _ _
          have hml4 : 4 ≤ commonLen src si mi (src.length - si) :=
            commonLen_ge src 4 (src.length - si) si mi (by omega)
              (fun k hk => (readU32_inj src hb si mi (by omega) (by omega) hcond.1 k hk).symm)
          set ml := commonLen src si mi (src.length - si) with hmldef
          obtain ⟨rest, hrest, hdecr⟩ := ih (si + ml) (si + ml)
            (fun h => if h = h16 then (si + 1) % M32 else table h)
            (by omega) (le_refl _) (by omega)
            (fun h => ⟨le_trans (htab2 h).1 (by omega), (htab2 h).2⟩)
          rw [hrest]
          simp only []
          refine ⟨_, rfl, ?_⟩
          intro dfuel hdf
          obtain ⟨d, rfl⟩ : ∃ d, dfuel = d + 1 := ⟨dfuel - 1, by omega⟩
          have hlits : ((List.range (si - ls)).map fun k => src.getD (ls + k) 0).length =
              si - ls := by simp
          have hcopy : matchCopy
              (src.take ls ++ (List.range (si - ls)).map fun k => src.getD (ls + k) 0)
              ((src.take ls).length + (si - ls) - (si - mi)) ml =
              some (src.take (si + ml)) := by
            rw [take_append_map_range src (si - ls) ls (by omega),
              show ls + (si - ls) = si by omega, List.length_take,
              show min ls src.length + (si - ls) - (si - mi) = mi by omega]
            exact matchCopy_take src ml si mi (by omega) hmi
              (fun k hk => (commonLen_spec src (src.length - si) si mi k (by omega)).symm)
          rw [decompressLoopF_step d (src.take ls)
            ((List.range (si - ls)).map fun k => src.getD (ls + k) 0) rest
            (si - ls) ml (si - mi) (src.take (si + ml)) hlits (by omega) hcond.2
            (by simp [List.length_take]; omega) (Or.inr (by omega)) hcopy]
          apply hdecr
          have : rest.length + 3 ≤ ([min (si - ls) 15 * 16 + min ml 15]
              ++ (if 15 ≤ si - ls then extBytes (si - ls - 15) else [])
              ++ ((List.range (si - ls)).map fun k => src.getD (ls + k) 0)
              ++ [(si - mi) % 256, (si - mi) / 256 % 256]
              ++ (if 15 ≤ ml then extBytes (ml - 15) else []) ++ rest).length := by
            simp [List.length_append]
            omega
          omega
        · rw [if_neg (fun hc => hcond ⟨hc.1, by exact_mod_cast hc.2⟩)]
          obtain ⟨out, hout, hdec⟩ := ih (si+1) ls
            (fun h => if h = h16 then (si + 1) % M32 else table h)
            (by omega) (by omega) (by omega) htab2
          exact ⟨out, hout, hdec⟩
    · rw [if_neg hlt]
      refine ⟨_, rfl, ?_⟩
      intro dfuel hdf
      obtain ⟨d, rfl⟩ : ∃ d, dfuel = d + 1 := ⟨dfuel - 1, by omega⟩
      by_cases hlc0 : 0 < src.length - ls
      · have hreshape : ([min (src.length - ls) 15 * 16]
            ++ (if 15 ≤ src.length - ls then extBytes (src.length - ls - 15) else [])
            ++ ((List.range (src.length - ls)).map fun k => src.getD (ls + k) 0)
            ++ [1, 0] ++ (if 0 < src.length - ls then [0] else [])) =
            ([min (src.length - ls) 15 * 16 + min 0 15]
            ++ (if 15 ≤ src.length - ls then extBytes (src.length - ls - 15) else [])
            ++ ((List.range (src.length - ls)).map fun k => src.getD (ls + k) 0)
            ++ [(1:ℕ) % 256, (1:ℕ) / 256 % 256]
            ++ (if (15:ℕ) ≤ 0 then extBytes (0 - 15) else []) ++ [0]) := by
          rw [if_pos hlc0]
          norm_num
        rw [hreshape]
        have hlits : ((List.range (src.length - ls)).map fun k => src.getD (ls + k) 0).length =
            src.length - ls := by simp
        have hcopy : matchCopy
            (src.take ls ++ (List.range (src.length - ls)).map fun k => src.getD (ls + k) 0)
            ((src.take ls).length + (src.length - ls) - 1) 0 =
            some (src.take ls ++ (List.range (src.length - ls)).map
              fun k => src.getD (ls + k) 0) := rfl
        rw [decompressLoopF_step d (src.take ls)
          ((List.range (src.length - ls)).map fun k => src.getD (ls + k) 0) [0]
          (src.length - ls) 0 1
          (src.take ls ++ (List.range (src.length - ls)).map fun k => src.getD (ls + k) 0)
          hlits (le_refl 1) (by omega)
          (by simp [List.length_take]; omega) (Or.inl hlc0) hcopy]
        rw [take_append_map_range src (src.length - ls) ls (by omega),
          show ls + (src.length - ls) = src.length by omega, List.take_length]
        obtain ⟨e, rfl⟩ : ∃ e, d = e + 1 := by
          have h3 : 3 ≤ ([min (src.length - ls) 15 * 16]
              ++ (if 15 ≤ src.length - ls then extBytes (src.length - ls - 15) else [])
              ++ ((List.range (src.length - ls)).map fun k => src.getD (ls + k) 0)
              ++ [1, 0] ++ (if 0 < src.length - ls then [0] else [])).length := by
            simp [List.length_append]
            omega
          exact ⟨d - 1, by omega⟩
        exact decompressLoopF_end e src
      · have hz : src.length - ls = 0 := by omega
        rw [hz, show ls = src.length by omega]
        rw [List.take_length]
        rfl

/-- C4 amended: LZ4S round trip for inputs shorter than `2^31` bytes.  For
every such `u8` byte sequence (byte values below 256), compression succeeds
(the fuel `len+1` always suffices) and decompressing the compressed stream
returns exactly the original bytes.  Below `2^31` every stored hash-table
entry survives the `u32`-to-`i32` reinterpretation unchanged and the `i32`
match offset equals the true distance; at `2^31` and beyond the offset
arithmetic wraps and the round trip fails (see the counterexample).
Proved by induction over the compressor loop: the emitted stream decodes
block by block onto the prefix `src.take literal_start`. -/
theorem C4_lz4s_roundtrip (bytes : List ℕ) (hb : ∀ b ∈ bytes, b < 256)
    (hlen : bytes.length < 2 ^ 31) :
    ∃ out, compress_lz4s bytes = some out ∧
      decompress_lz4s out bytes.length = some bytes := by
  obtain ⟨out, hout, hdec⟩ := compressLoop_decodes bytes hb hlen (bytes.length + 1) 0 0
    (fun _ => 0) (by omega) (le_refl 0) (Nat.zero_le _)
    (fun _ => ⟨Nat.le_refl 0, fun hp => absurd hp (lt_irrefl 0)⟩)
  refine ⟨out, ?_, ?_⟩
  · rw [compress_lz4s]
    exact hout
  · rw [decompress_lz4s]
    exact hdec (out.length + 1) (by omega)

/-- Witness for C4 on a 12-byte input that exercises the match path. -/
theorem C4_lz4s_roundtrip_witness :
    (∀ b ∈ [7, 7, 7, 7, 7, 7, 7, 7, 7, 7, 7, 7], b < 256) ∧
    (List.length [7, 7, 7, 7, 7, 7, 7, 7, 7, 7, 7, 7] < 2 ^ 31) ∧
    (∃ out, compress_lz4s [7, 7, 7, 7, 7, 7, 7, 7, 7, 7, 7, 7] = some out ∧
      decompress_lz4s out (List.length [7, 7, 7, 7, 7, 7, 7, 7, 7, 7, 7, 7]) =
        some [7, 7, 7, 7, 7, 7, 7, 7, 7, 7, 7, 7]) :=
  ⟨by decide, by decide,
    C4_lz4s_roundtrip [7, 7, 7, 7, 7, 7, 7, 7, 7, 7, 7, 7] (by decide) (by decide)⟩


/-- C7 counterexample: with 2^33 microblocks the `u32` linear index wraps.
Target block `65536x65536x2` (mono u8) holding one byte, source block
`1x1x1` copied in at offset `(0,0,1)`: the z=1 microblock's destination
index `1*65536*65536` wraps to `0`, so the call returns `Ok` after
overwriting byte 0 -- which lies in microblock `(0,0,0)`, outside the target
rectangle `z in [1,2)` (its z digit `0 / 1 / (65536*65536) = 0` is below the
rectangle's `offset.z/md.z = 1`).  Release builds wrap; debug builds would
panic on the multiply. -/
theorem C7_copy_in_frame_counterexample :
    (Block.new 0 ⟨65536, 65536, 2⟩ (some 0) (some [5])).setDataInRange ⟨0, 0, 1⟩
        (Block.new 0 ⟨1, 1, 1⟩ (some 0) (some [9])) monoU8 =
      some (.ok { index := 0, dimensions := ⟨65536, 65536, 2⟩, placements := []
                  format := some 0, data := some [9]
                  dataUrl := Option.none, encoding := Option.none }) ∧
    (0 : ℕ) / 1 / (65536 * 65536) < 1 / 1 ∧
    ([9] : List ℕ).getD 0 0 ≠ ([5] : List ℕ).getD 0 0 :=
  ⟨rfl, by decide, by decide⟩

/-- The C3 counterexample source buffer: `count_space`-many zeros with a
marker byte `9` at index `33554432`, the position the code actually reads. -/
def c3Src : List ℕ := (List.replicate 67108868 0).set 33554432 9

/-- A format with `2x1x1` microblocks of two bytes (e.g. mono u16). -/
def c3Fmt : Format :=
  { microblockDimensions := ⟨2, 1, 1⟩
    microblockSize := 2
    family := .mono 1 .uint 2
    extension := none }

set_option maxRecDepth 4000

/-- Evaluation of the copy-out call of the C3 counterexample, for an
arbitrary source buffer: the single microblock of the range is read from
source bytes `33554432` and `33554433` (the `f32` grid width `16777216`
times the microblock size). -/
theorem c3_eval (src : List ℕ) :
    (Block.new 0 ⟨33554434, 2, 1⟩ (some 0) (some src)).getDataInRange
        ⟨0, 1, 0⟩ ⟨2, 2, 1⟩ c3Fmt = .ok
      { index := 0, dimensions := ⟨2, 1, 1⟩, placements := []
        format := some 0, data := some [src.getD 33554432 0, src.getD 33554433 0]
        dataUrl := Option.none, encoding := Option.none } := by
  have hdata : (Block.new 0 ⟨33554434, 2, 1⟩ (some 0) (some src)).data = some src := rfl
  have hsub : (⟨2, 2, 1⟩ : Vector3).subW ⟨0, 1, 0⟩ = ⟨2, 1, 1⟩ := rfl
  have hdim : (Block.new 0 ⟨33554434, 2, 1⟩ (some 0) (some src)).dimensions =
      ⟨33554434, 2, 1⟩ := rfl
  rw [Block.getDataInRange]
  simp only [hdata, hsub, hdim]
  rw [if_neg (by decide), if_neg (by decide), if_neg (by decide), if_neg (by decide),
    if_neg (by decide)]
  have e1 : ({ x := 2, y := 1, z := 1 } : Vector3).divToU32v c3Fmt.microblockDimensions =
      ⟨1, 1, 1⟩ := rfl
  have e2 : ({ x := 0, y := 1, z := 0 } : Vector3).divToU32v c3Fmt.microblockDimensions =
      ⟨0, 1, 0⟩ := rfl
  have e3 : ({ x := 33554434, y := 2, z := 1 } : Vector3).divToU32v c3Fmt.microblockDimensions =
      ⟨16777216, 2, 1⟩ := rfl
  have e4 : c3Fmt.countSpace ⟨2, 1, 1⟩ = 2 := rfl
  have e5 : c3Fmt.microblockSize = 2 := rfl
  simp only [e1, e2, e3, e4, e5]
  have e6 : tripleRange 1 1 1 = [⟨0, 0, 0⟩] := rfl
  simp only [e6, List.foldl_cons, List.foldl_nil]
  rfl

/-- C3 counterexample: the claim's copy law fails beyond the `f32`-exact
range.  Block dimensions `(33554434, 2, 1)` with microblock width 2:
`33554434 as f32` rounds to `33554432` (ties to even above `2^24`), so the
code's microblock grid width is `16777216` where exact arithmetic gives
`33554434 / 2 = 16777217`.  Copying out the range `[(0,1,0), (2,2,1))`, the
single microblock is read from source byte `16777216*2 = 33554432` (the `9`),
while the claim's law `linear_index((0,0,0)+start/md, dims/md) * ms` demands
byte `16777217*2 = 33554434` (a `0`).  The call returns `Ok` -- a silent
wrong-bytes result in release builds. -/

theorem C3_copy_out_law_counterexample :
    ∃ dest : List ℕ,
      (Block.new 0 ⟨33554434, 2, 1⟩ (some 0) (some c3Src)).getDataInRange
          ⟨0, 1, 0⟩ ⟨2, 2, 1⟩ c3Fmt = .ok
        { index := 0, dimensions := ⟨2, 1, 1⟩, placements := []
          format := some 0, data := some dest
          dataUrl := Option.none, encoding := Option.none } ∧
      dest.getD ((0 + 0 * ((2:ℕ) / 2) + 0 * ((2:ℕ) / 2) * ((1:ℕ) / 1)) * 2 + 0) 0 ≠
        c3Src.getD (((0 + 0 / 2) + (0 + 1 / 1) * (33554434 / 2) +
          (0 + 0 / 1) * (33554434 / 2) * ((2:ℕ) / 1)) * 2 + 0) 0 := by
  refine ⟨[c3Src.getD 33554432 0, c3Src.getD 33554433 0], c3_eval c3Src, ?_⟩
  have h1 : c3Src.getD 33554432 0 = 9 := by
    rw [c3Src]
    exact getD_set_eq _ _ _ (by rw [List.length_replicate]; norm_num)
  have h2 : c3Src.getD (((0 + 0 / 2) + (0 + 1 / 1) * (33554434 / 2) +
      (0 + 0 / 1) * (33554434 / 2) * ((2:ℕ) / 1)) * 2 + 0) 0 = 0 := by
    rw [show ((0 + 0 / 2) + (0 + 1 / 1) * (33554434 / 2) +
      (0 + 0 / 1) * (33554434 / 2) * ((2:ℕ) / 1)) * 2 + 0 = 33554434 by norm_num]
    rw [c3Src, getD_set_ne (List.replicate 67108868 0) 33554432 33554434 9 (by omega)]
    rw [List.getD_eq_getElem _ _ (by rw [List.length_replicate]; norm_num),
      List.getElem_replicate]
  rw [h2, show (0 + 0 * ((2:ℕ) / 2) + 0 * ((2:ℕ) / 2) * ((1:ℕ) / 1)) * 2 + 0 = 0
    by norm_num, List.getD_cons_zero, h1]
  omega

set_option maxRecDepth 512

end Bvp
namespace Bvp

/-- The C4 counterexample input: a 4-byte pattern, a run of zeros stretching
to position `2^31`, and the pattern again. -/
def c4Src : List ℕ := ([1, 2, 3, 4] ++ List.replicate 2147483644 0) ++ [1, 2, 3, 4, 5]

theorem commonLen_le_of_ne (src : List ℕ) (fuel si mi n : ℕ)
    (hn : src.getD (si + n) 0 ≠ src.getD (mi + n) 0) :
    commonLen src si mi fuel ≤ n := by
  by_contra h
  push_neg at h
  exact hn (commonLen_spec src fuel si mi n (by omega))

theorem getD_replicate_zero (n i : ℕ) : (List.replicate n (0:ℕ)).getD i 0 = 0 := by
  by_cases h : i < n
  · rw [List.getD_eq_getElem _ _ (by rw [List.length_replicate]; omega),
      List.getElem_replicate]
  · rw [List.getD_eq_default _ _ (by rw [List.length_replicate]; omega)]

theorem extBytes_length (n : ℕ) : (extBytes n).length = n / 255 + 1 := by
  rw [extBytes, List.length_append, List.length_replicate, List.length_cons,
    List.length_nil]

theorem matchCopy_zeros : ∀ (k : ℕ) (dest : List ℕ) (mi : ℕ), mi < dest.length →
    (∀ j, mi ≤ j → j < dest.length → dest.getD j 0 = 0) →
    matchCopy dest mi k = some (dest ++ List.replicate k 0) := by
  intro k
  induction k with
  | zero => intro dest mi _ _; rw [matchCopy, List.replicate_zero, List.append_nil]
  | succ k ih =>
    intro dest mi hmi hz
    rw [matchCopy]
    have hget : dest[mi]? = some 0 := by
      rw [List.getElem?_eq_getElem hmi]
      have := hz mi (le_refl _) hmi
      rw [List.getD_eq_getElem _ _ hmi] at this
      rw [this]
    rw [hget]
    show matchCopy (dest ++ [0]) (mi + 1) k = some (dest ++ List.replicate (k+1) 0)
    have hlen : (dest ++ [0]).length = dest.length + 1 := by
      rw [List.length_append, List.length_cons, List.length_nil]
    rw [ih (dest ++ [0]) (mi + 1) (by omega)
      (fun j hj1 hj2 => by
        by_cases hj : j < dest.length
        · rw [List.getD_append _ _ _ _ hj]
          exact hz j (by omega) hj
        · rw [List.getD_append_right _ _ _ _ (by omega),
            show j - dest.length = 0 by omega]
          rfl)]
    rw [List.append_assoc]
    rw [show ([0] : List ℕ) ++ List.replicate k 0 = List.replicate (k+1) 0 from by
      rw [List.replicate_succ]
      rfl]

theorem matchCopy_oob (dest : List ℕ) (k : ℕ) :
    matchCopy dest dest.length (k + 1) = Option.none := by
  rw [matchCopy, List.getElem?_eq_none (le_refl _)]

/-- Length of the pattern-plus-zeros prefix. -/
theorem c4AB_length : ([1, 2, 3, 4] ++ List.replicate 2147483644 (0:ℕ)).length =
    2147483648 := by
  rw [List.length_append, List.length_replicate]
  rfl

/-- Byte values of the counterexample input. -/
theorem c4Src_getD_lo (j : ℕ) (hj : j < 4) :
    c4Src.getD j 0 = [1, 2, 3, 4].getD j 0 := by
  rw [c4Src, List.getD_append _ _ _ _ (by rw [c4AB_length]; omega),
    List.getD_append _ _ _ _ (by show j < 4; omega)]

theorem c4Src_getD_zeros (j : ℕ) (hj1 : 4 ≤ j) (hj2 : j < 2147483648) :
    c4Src.getD j 0 = 0 := by
  rw [c4Src, List.getD_append _ _ _ _ (by rw [c4AB_length]; omega),
    List.getD_append_right _ _ _ _ (by show 4 ≤ j; omega)]
  exact getD_replicate_zero _ _

theorem c4Src_getD_hi (j : ℕ) (hj : 2147483648 ≤ j) :
    c4Src.getD j 0 = [1, 2, 3, 4, 5].getD (j - 2147483648) 0 := by
  rw [c4Src, List.getD_append_right _ _ _ _ (by rw [c4AB_length]; omega), c4AB_length]

theorem c4Src_length : c4Src.length = 2147483653 := by
  rw [c4Src, List.length_append, c4AB_length]
  rfl

theorem c4_readU32_0 : readU32 c4Src 0 = 67305985 := by
  rw [readU32, c4Src_getD_lo 0 (by omega), c4Src_getD_lo (0+1) (by omega),
    c4Src_getD_lo (0+2) (by omega), c4Src_getD_lo (0+3) (by omega)]
  rfl

theorem c4_readU32_1 : readU32 c4Src 1 = 262914 := by
  rw [readU32, c4Src_getD_lo 1 (by omega), c4Src_getD_lo (1+1) (by omega),
    c4Src_getD_lo (1+2) (by omega), c4Src_getD_zeros (1+3) (by omega) (by omega)]
  rfl

theorem c4_readU32_2 : readU32 c4Src 2 = 1027 := by
  rw [readU32, c4Src_getD_lo 2 (by omega), c4Src_getD_lo (2+1) (by omega),
    c4Src_getD_zeros (2+2) (by omega) (by omega),
    c4Src_getD_zeros (2+3) (by omega) (by omega)]
  rfl

theorem c4_readU32_3 : readU32 c4Src 3 = 4 := by
  rw [readU32, c4Src_getD_lo 3 (by omega), c4Src_getD_zeros (3+1) (by omega) (by omega),
    c4Src_getD_zeros (3+2) (by omega) (by omega),
    c4Src_getD_zeros (3+3) (by omega) (by omega)]
  rfl

theorem c4_readU32_4 : readU32 c4Src 4 = 0 := by
  rw [readU32, c4Src_getD_zeros 4 (by omega) (by omega),
    c4Src_getD_zeros (4+1) (by omega) (by omega),
    c4Src_getD_zeros (4+2) (by omega) (by omega),
    c4Src_getD_zeros (4+3) (by omega) (by omega)]

theorem c4_readU32_5 : readU32 c4Src 5 = 0 := by
  rw [readU32, c4Src_getD_zeros 5 (by omega) (by omega),
    c4Src_getD_zeros (5+1) (by omega) (by omega),
    c4Src_getD_zeros (5+2) (by omega) (by omega),
    c4Src_getD_zeros (5+3) (by omega) (by omega)]

theorem c4_readU32_hi : readU32 c4Src 2147483648 = 67305985 := by
  rw [readU32, c4Src_getD_hi 2147483648 (by omega),
    c4Src_getD_hi (2147483648+1) (by omega), c4Src_getD_hi (2147483648+2) (by omega),
    c4Src_getD_hi (2147483648+3) (by omega)]
  rfl

theorem c4_commonLen_1 : commonLen c4Src 5 4 2147483648 = 2147483643 := by
  have hle : commonLen c4Src 5 4 2147483648 ≤ 2147483643 :=
    commonLen_le_of_ne c4Src 2147483648 5 4 2147483643 (by
      rw [show (5:ℕ) + 2147483643 = 2147483648 from by norm_num,
        c4Src_getD_hi 2147483648 (le_refl _),
        show (4:ℕ) + 2147483643 = 2147483647 from by norm_num,
        c4Src_getD_zeros 2147483647 (by omega) (by omega)]
      decide)
  have hge : 2147483643 ≤ commonLen c4Src 5 4 2147483648 :=
    commonLen_ge c4Src 2147483643 2147483648 5 4 (by omega) (fun k hk => by
      rw [c4Src_getD_zeros (5 + k) (by omega) (by omega),
        c4Src_getD_zeros (4 + k) (by omega) (by omega)])
  omega

theorem c4_commonLen_2 : commonLen c4Src 2147483648 0 5 = 4 := by
  have hle : commonLen c4Src 2147483648 0 5 ≤ 4 :=
    commonLen_le_of_ne c4Src 5 2147483648 0 4 (by
      rw [c4Src_getD_hi (2147483648 + 4) (by omega),
        show (2147483648:ℕ) + 4 - 2147483648 = 4 from by omega,
        c4Src_getD_zeros (0 + 4) (by omega) (by omega)]
      decide)
  have hge : 4 ≤ commonLen c4Src 2147483648 0 5 :=
    commonLen_ge c4Src 4 5 2147483648 0 (by omega) (fun k hk => by
      rw [c4Src_getD_hi (2147483648 + k) (by omega),
        show 2147483648 + k - 2147483648 = 0 + k from by omega,
        c4Src_getD_lo (0 + k) (by omega)]
      interval_cases k <;> rfl)
  omega

/-- One no-match iteration of the compressor loop (fuel kept symbolic so the
equation can be applied at large literal fuels). -/
theorem compressLoop_skip (src : List ℕ) (fuel : ℕ) (table : ℕ → ℕ) (si ls : ℕ)
    (h4 : si + 4 < src.length)
    (hneg : i32Wrap (toI32 (table ((hashU32 (readU32 src si) / 65536 ^^^
      hashU32 (readU32 src si)) % 65536)) - 1) < 0) :
    compressLoop src (fuel + 1) table si ls =
      compressLoop src fuel
        (fun h => if h = (hashU32 (readU32 src si) / 65536 ^^^
          hashU32 (readU32 src si)) % 65536 then (si + 1) % M32 else table h)
        (si + 1) ls := by
  rw [compressLoop, if_pos h4, if_pos hneg]

/-- One match iteration of the compressor loop. -/
theorem compressLoop_matchStep (src : List ℕ) (fuel : ℕ) (table : ℕ → ℕ)
    (si ls mi : ℕ)
    (h4 : si + 4 < src.length)
    (hmi : i32Wrap (toI32 (table ((hashU32 (readU32 src si) / 65536 ^^^
      hashU32 (readU32 src si)) % 65536)) - 1) = (mi : ℤ))
    (hlen : ¬ (src.length < mi + 4))
    (hcor : readU32 src mi = readU32 src si)
    (hnear : i32Wrap (toI32 si - (mi : ℤ)) < 65536) :
    compressLoop src (fuel + 1) table si ls =
      (match compressLoop src fuel
          (fun h => if h = (hashU32 (readU32 src si) / 65536 ^^^
            hashU32 (readU32 src si)) % 65536 then (si + 1) % M32 else table h)
          (si + commonLen src si mi (src.length - si))
          (si + commonLen src si mi (src.length - si)) with
       | Option.none => Option.none
       | some rest =>
         some ([min (si - ls) 15 * 16 + min (commonLen src si mi (src.length - si)) 15]
           ++ (if 15 ≤ si - ls then extBytes (si - ls - 15) else [])
           ++ ((List.range (si - ls)).map fun k => src.getD (ls + k) 0)
           ++ [(i32Wrap (toI32 si - (mi : ℤ)) % 4294967296).toNat % 256,
               (i32Wrap (toI32 si - (mi : ℤ)) % 4294967296).toNat / 256 % 256]
           ++ (if 15 ≤ commonLen src si mi (src.length - si) then
                 extBytes (commonLen src si mi (src.length - si) - 15) else [])
           ++ rest)) := by
  rw [compressLoop, if_pos h4]
  simp only [hmi, Int.toNat_natCast]
  rw [if_neg (not_lt.mpr (by exact_mod_cast Int.natCast_nonneg mi)), if_neg hlen,
    if_pos ⟨hcor, hnear⟩]

/-- Match iteration, stated without the `match` on the recursive call: the
recursive result, the match length and the hash values enter as hypotheses,
so the equation can be instantiated at huge inputs without reducing them. -/
theorem compressLoop_matchGo (src : List ℕ) (fuel : ℕ) (table : ℕ → ℕ)
    (si ls mi ml h16v sv : ℕ) (rest : List ℕ)
    (h4 : si + 4 < src.length)
    (hh : (hashU32 (readU32 src si) / 65536 ^^^ hashU32 (readU32 src si)) % 65536 = h16v)
    (hsv : (si + 1) % M32 = sv)
    (hmi : i32Wrap (toI32 (table h16v) - 1) = (mi : ℤ))
    (hlen : ¬ (src.length < mi + 4))
    (hcor : readU32 src mi = readU32 src si)
    (hnear : i32Wrap (toI32 si - (mi : ℤ)) < 65536)
    (hml : commonLen src si mi (src.length - si) = ml)
    (hrec : compressLoop src fuel (fun h => if h = h16v then sv else table h)
      (si + ml) (si + ml) = some rest) :
    compressLoop src (fuel + 1) table si ls =
      some ([min (si - ls) 15 * 16 + min ml 15]
        ++ (if 15 ≤ si - ls then extBytes (si - ls - 15) else [])
        ++ ((List.range (si - ls)).map fun k => src.getD (ls + k) 0)
        ++ [(i32Wrap (toI32 si - (mi : ℤ)) % 4294967296).toNat % 256,
            (i32Wrap (toI32 si - (mi : ℤ)) % 4294967296).toNat / 256 % 256]
        ++ (if 15 ≤ ml then extBytes (ml - 15) else [])
        ++ rest) := by
  subst hh hsv hml
  rw [compressLoop_matchStep src fuel table si ls mi h4 hmi hlen hcor hnear, hrec]

/-- The trailing-literal epilogue of the compressor loop. -/
theorem compressLoop_trailer (src : List ℕ) (fuel : ℕ) (table : ℕ → ℕ) (si ls : ℕ)
    (h4 : ¬ (si + 4 < src.length)) :
    compressLoop src (fuel + 1) table si ls =
      some ([min (src.length - ls) 15 * 16]
        ++ (if 15 ≤ src.length - ls then extBytes (src.length - ls - 15) else [])
        ++ ((List.range (src.length - ls)).map fun k => src.getD (ls + k) 0)
        ++ [1, 0] ++ (if 0 < src.length - ls then [0] else [])) := by
  rw [compressLoop, if_neg h4]

/-- The compressed form of `c4Src`: one block covering the five literals and
the long zero match, then the far-match block whose wrapped offset is emitted
as the bytes `[0, 0]`, then the trailer holding the final literal byte. -/
def c4Out : List ℕ :=
  [95] ++ [] ++ [1, 2, 3, 4, 0] ++ [1, 0] ++ extBytes 2147483628 ++ [4, 0, 0, 16, 5, 1, 0, 0]

set_option maxRecDepth 2000

/-- Evaluation of the compressor on the counterexample input: five no-match
steps, a near match at index 5 consuming the zero run, a far match at index
`2^31` whose `i32` offset `2^31 - 0` wraps to `-2^31` (passing the
`< 1 << 16` check) and is emitted as offset bytes `[0, 0]`, then the trailer
with the one remaining literal. -/
theorem c4_compress : compress_lz4s c4Src = some c4Out := by
  have htr : (List.range 1).map (fun k => c4Src.getD (2147483652 + k) 0) = [5] := by
    rw [show List.range 1 = [0] from rfl]
    simp only [List.map_cons, List.map_nil]
    rw [show (2147483652:ℕ) + 0 = 2147483652 from rfl,
      c4Src_getD_hi 2147483652 (by norm_num),
      show (2147483652:ℕ) - 2147483648 = 4 from rfl]
    rfl
  have h_tr : compressLoop c4Src (2147483646 + 1)
      (fun h => if h = 6413 then 2147483649 else if h = 45673 then 6 else
        if h = 45673 then 5 else if h = 6261 then 4 else if h = 48378 then 3 else
        if h = 2820 then 2 else if h = 6413 then 1 else 0) 2147483652 2147483652 =
      some [16, 5, 1, 0, 0] := by
    rw [compressLoop_trailer c4Src 2147483646 _ 2147483652 2147483652
      (by rw [c4Src_length]; norm_num)]
    simp only [c4Src_length, show (2147483653:ℕ) - 2147483652 = 1 from rfl]
    rw [htr]
    rfl
  have h_b2 : compressLoop c4Src (2147483647 + 1)
      (fun h => if h = 45673 then 6 else if h = 45673 then 5 else
        if h = 6261 then 4 else if h = 48378 then 3 else
        if h = 2820 then 2 else if h = 6413 then 1 else 0) 2147483648 2147483648 =
      some ([min (2147483648 - 2147483648) 15 * 16 + min 4 15]
        ++ (if 15 ≤ 2147483648 - 2147483648 then
              extBytes (2147483648 - 2147483648 - 15) else [])
        ++ ((List.range (2147483648 - 2147483648)).map fun k =>
              c4Src.getD (2147483648 + k) 0)
        ++ [(i32Wrap (toI32 2147483648 - ((0:ℕ):ℤ)) % 4294967296).toNat % 256,
            (i32Wrap (toI32 2147483648 - ((0:ℕ):ℤ)) % 4294967296).toNat / 256 % 256]
        ++ (if 15 ≤ 4 then extBytes (4 - 15) else [])
        ++ [16, 5, 1, 0, 0]) :=
    compressLoop_matchGo c4Src 2147483647
      (fun h => if h = 45673 then 6 else if h = 45673 then 5 else
        if h = 6261 then 4 else if h = 48378 then 3 else
        if h = 2820 then 2 else if h = 6413 then 1 else 0)
      2147483648 2147483648 0 4 6413 2147483649 [16, 5, 1, 0, 0]
      (by rw [c4Src_length]; norm_num)
      (by rw [c4_readU32_hi]; decide)
      (by decide)
      (by decide)
      (by rw [c4Src_length]; norm_num)
      (by rw [c4_readU32_0, c4_readU32_hi])
      (by decide)
      (by rw [c4Src_length, show (2147483653:ℕ) - 2147483648 = 5 from rfl]
          exact c4_commonLen_2)
      h_tr
  have h_b1 : compressLoop c4Src (2147483648 + 1)
      (fun h => if h = 45673 then 5 else if h = 6261 then 4 else
        if h = 48378 then 3 else if h = 2820 then 2 else
        if h = 6413 then 1 else 0) 5 0 =
      some ([min (5 - 0) 15 * 16 + min 2147483643 15]
        ++ (if 15 ≤ 5 - 0 then extBytes (5 - 0 - 15) else [])
        ++ ((List.range (5 - 0)).map fun k => c4Src.getD (0 + k) 0)
        ++ [(i32Wrap (toI32 5 - ((4:ℕ):ℤ)) % 4294967296).toNat % 256,
            (i32Wrap (toI32 5 - ((4:ℕ):ℤ)) % 4294967296).toNat / 256 % 256]
        ++ (if 15 ≤ 2147483643 then extBytes (2147483643 - 15) else [])
        ++ ([min (2147483648 - 2147483648) 15 * 16 + min 4 15]
          ++ (if 15 ≤ 2147483648 - 2147483648 then
                extBytes (2147483648 - 2147483648 - 15) else [])
          ++ ((List.range (2147483648 - 2147483648)).map fun k =>
                c4Src.getD (2147483648 + k) 0)
          ++ [(i32Wrap (toI32 2147483648 - ((0:ℕ):ℤ)) % 4294967296).toNat % 256,
              (i32Wrap (toI32 2147483648 - ((0:ℕ):ℤ)) % 4294967296).toNat / 256 % 256]
          ++ (if 15 ≤ 4 then extBytes (4 - 15) else [])
          ++ [16, 5, 1, 0, 0])) :=
    compressLoop_matchGo c4Src 2147483648
      (fun h => if h = 45673 then 5 else if h = 6261 then 4 else
        if h = 48378 then 3 else if h = 2820 then 2 else
        if h = 6413 then 1 else 0)
      5 0 4 2147483643 45673 6
      ([min (2147483648 - 2147483648) 15 * 16 + min 4 15]
        ++ (if 15 ≤ 2147483648 - 2147483648 then
              extBytes (2147483648 - 2147483648 - 15) else [])
        ++ ((List.range (2147483648 - 2147483648)).map fun k =>
              c4Src.getD (2147483648 + k) 0)
        ++ [(i32Wrap (toI32 2147483648 - ((0:ℕ):ℤ)) % 4294967296).toNat % 256,
            (i32Wrap (toI32 2147483648 - ((0:ℕ):ℤ)) % 4294967296).toNat / 256 % 256]
        ++ (if 15 ≤ 4 then extBytes (4 - 15) else [])
        ++ [16, 5, 1, 0, 0])
      (by rw [c4Src_length]; norm_num)
      (by rw [c4_readU32_5]; decide)
      (by decide)
      (by decide)
      (by rw [c4Src_length]; norm_num)
      (by rw [c4_readU32_4, c4_readU32_5])
      (by decide)
      (by rw [c4Src_length, show (2147483653:ℕ) - 5 = 2147483648 from rfl]
          exact c4_commonLen_1)
      h_b2
  rw [compress_lz4s, c4Src_length]
  rw [compressLoop_skip c4Src 2147483653 (fun _ => (0:ℕ)) 0 0
    (by rw [c4Src_length]; norm_num) (by rw [c4_readU32_0]; decide)]
  simp only [c4_readU32_0,
    show (hashU32 67305985 / 65536 ^^^ hashU32 67305985) % 65536 = 6413 from by decide,
    show (0 + 1) % M32 = 1 from by decide]
  rw [show (2147483653:ℕ) = 2147483652 + 1 from rfl]
  rw [compressLoop_skip c4Src 2147483652
    (fun h => if h = 6413 then 1 else 0) 1 0
    (by rw [c4Src_length]; norm_num) (by rw [c4_readU32_1]; decide)]
  simp only [c4_readU32_1,
    show (hashU32 262914 / 65536 ^^^ hashU32 262914) % 65536 = 2820 from by decide,
    show (1 + 1) % M32 = 2 from by decide]
  rw [show (2147483652:ℕ) = 2147483651 + 1 from rfl]
  rw [compressLoop_skip c4Src 2147483651
    (fun h => if h = 2820 then 2 else if h = 6413 then 1 else 0) 2 0
    (by rw [c4Src_length]; norm_num) (by rw [c4_readU32_2]; decide)]
  simp only [c4_readU32_2,
    show (hashU32 1027 / 65536 ^^^ hashU32 1027) % 65536 = 48378 from by decide,
    show (2 + 1) % M32 = 3 from by decide]
  rw [show (2147483651:ℕ) = 2147483650 + 1 from rfl]
  rw [compressLoop_skip c4Src 2147483650
    (fun h => if h = 48378 then 3 else if h = 2820 then 2 else
      if h = 6413 then 1 else 0) 3 0
    (by rw [c4Src_length]; norm_num) (by rw [c4_readU32_3]; decide)]
  simp only [c4_readU32_3,
    show (hashU32 4 / 65536 ^^^ hashU32 4) % 65536 = 6261 from by decide,
    show (3 + 1) % M32 = 4 from by decide]
  rw [show (2147483650:ℕ) = 2147483649 + 1 from rfl]
  rw [compressLoop_skip c4Src 2147483649
    (fun h => if h = 6261 then 4 else if h = 48378 then 3 else
      if h = 2820 then 2 else if h = 6413 then 1 else 0) 4 0
    (by rw [c4Src_length]; norm_num) (by rw [c4_readU32_4]; decide)]
  simp only [c4_readU32_4,
    show (hashU32 0 / 65536 ^^^ hashU32 0) % 65536 = 45673 from by decide,
    show (4 + 1) % M32 = 5 from by decide]
  rw [show (2147483649:ℕ) = 2147483648 + 1 from rfl]
  rw [h_b1]
  rfl

set_option maxRecDepth 512

theorem c4Out_length : c4Out.length = 8421521 := by
  rw [c4Out, List.length_append, List.length_append, List.length_append,
    List.length_append, List.length_append, extBytes_length]
  rfl

/-- A decoder block with token `0x04` and offset bytes `[0, 0]` panics: the
match copy starts reading at `dest[dest.len()]`. -/
theorem c4_block2_panics (fuel : ℕ) (dest r3 : List ℕ) :
    decompressLoopF (fuel + 1) dest (4 :: 0 :: 0 :: r3) = Option.none := by
  rw [decompressLoopF]
  rw [if_neg (show ¬((4:ℕ) = 0) from by norm_num)]
  rw [if_neg (show ¬((4:ℕ) / 16 = 15) from by norm_num)]
  simp only []
  rw [show (4:ℕ) / 16 = 0 from rfl]
  rw [if_neg (Nat.not_lt.mpr (Nat.zero_le _))]
  rw [List.drop_zero]
  simp only [List.take_zero, List.append_nil]
  rw [show (0:ℕ) + 0 * 256 = 0 from rfl]
  rw [if_neg (Nat.not_lt.mpr (Nat.zero_le _))]
  rw [if_neg (show ¬((4:ℕ) % 16 = 15) from by norm_num)]
  simp only []
  rw [show (4:ℕ) % 16 = 3 + 1 from rfl, Nat.sub_zero]
  rw [matchCopy_oob dest 3]

/-- Decoding the compressed counterexample: the first block rebuilds the
`2^31`-byte prefix, the second block has offset bytes `[0, 0]`, so the
decoder computes offset 0 and its `dest[match_index]` read starts at
`dest.len()`, out of bounds (a panic). -/
theorem c4_decompress : decompress_lz4s c4Out c4Src.length = Option.none := by
  have hshape : ([min 5 15 * 16 + min 2147483643 15]
      ++ (if 15 ≤ (5:ℕ) then extBytes (5 - 15) else [])
      ++ [1, 2, 3, 4, 0] ++ [(1:ℕ) % 256, 1 / 256 % 256]
      ++ (if 15 ≤ (2147483643:ℕ) then extBytes (2147483643 - 15) else [])
      ++ [4, 0, 0, 16, 5, 1, 0, 0]) = c4Out := by
    rw [c4Out, if_neg (show ¬((15:ℕ) ≤ 5) from by norm_num),
      if_pos (show (15:ℕ) ≤ 2147483643 from by norm_num),
      show min 5 15 * 16 + min 2147483643 15 = 95 from by decide,
      show (2147483643:ℕ) - 15 = 2147483628 from rfl,
      show (1:ℕ) % 256 = 1 from rfl, show (1:ℕ) / 256 % 256 = 0 from rfl]
  have hcopy : matchCopy (([]:List ℕ) ++ [1, 2, 3, 4, 0])
      (List.length ([]:List ℕ) + 5 - 1) 2147483643 =
      some ([1, 2, 3, 4, 0] ++ List.replicate 2147483643 0) := by
    rw [List.nil_append, show List.length ([]:List ℕ) + 5 - 1 = 4 from rfl]
    exact matchCopy_zeros 2147483643 [1, 2, 3, 4, 0] 4 (by decide)
      (fun j hj1 hj2 => by
        have hj5 : j < 5 := by simpa using hj2
        have hj4 : j = 4 := by omega
        subst hj4
        rfl)
  rw [decompress_lz4s, c4Out_length, ← hshape]
  rw [decompressLoopF_step 8421521 [] [1, 2, 3, 4, 0] [4, 0, 0, 16, 5, 1, 0, 0]
    5 2147483643 1 ([1, 2, 3, 4, 0] ++ List.replicate 2147483643 0)
    rfl (le_refl 1) (by norm_num) (by simp) (Or.inl (by norm_num)) hcopy]
  rw [show (8421521:ℕ) = 8421520 + 1 from rfl]
  exact c4_block2_panics 8421520 ([1, 2, 3, 4, 0] ++ List.replicate 2147483643 0)
    [16, 5, 1, 0, 0]

/-- C4 counterexample: on the `2^31 + 5`-byte input `c4Src` (a valid byte
sequence: a 4-byte pattern, zeros up to position `2^31`, the pattern again
plus one trailing byte) the round trip fails.  The compressor finds the
repeated pattern at distance `2^31`; `match_offset = src_index as i32 -
match_index` wraps to `-2^31`, which passes the signed `< 1 << 16` nearness
check, and the emitted 16-bit offset bytes are `[0, 0]`.  The decoder then
computes match offset 0 and panics reading `dest[dest.len()]`, so
decompression does not return the input (it returns nothing at all). -/
theorem C4_lz4s_roundtrip_counterexample :
    (∀ b ∈ c4Src, b < 256) ∧
    compress_lz4s c4Src = some c4Out ∧
    decompress_lz4s c4Out c4Src.length = Option.none ∧
    decompress_lz4s c4Out c4Src.length ≠ some c4Src := by
  refine ⟨?_, c4_compress, c4_decompress, ?_⟩
  · intro b hb
    rw [c4Src] at hb
    rcases List.mem_append.mp hb with h | h
    · rcases List.mem_append.mp h with h2 | h2
      · simp at h2
        omega
      · have := List.eq_of_mem_replicate h2
        omega
    · simp at h
      omega
  · intro h
    rw [c4_decompress] at h
    exact Option.noConfusion h

end Bvp
